import Mathlib

/-!
# Feeze scheduling recorder: user-space publisher

A shallow embedding of `src/c/feeze_recorder.c` (with the raw event of
`src/include/feeze_recorder_common.h`): the C object layout of the log entry
and of the header, the identity caches, `post_entry`, `add_process`,
`add_thread`, `handle_event` and the start of `main`.

Conventions.
* `pid_t`/`int` values are `Int`, `uint64_t` values are `Nat`; the one place
  where a machine integer is incremented next to a bound (`ec+1` on the
  `uint64_t` event count) carries an explicit `% 2^64`.
* A C array `char[n]` is a list of exactly `n` bytes (`char_array n`).
* The global arrays and the entry slots of the shared region are maps from
  index to value; a store `a[i] = v` is `Function.update a i v`.
* What the code reads from `/proc` (`get_tgid`, `get_process_name`) is an
  input of the call (`lookup`).
* `printf` output is not part of the state.
-/

namespace Feeze

/-! ## C object layout -/

/-- Size and alignment in bytes of a C object type. -/
structure ctype where
  size : Nat
  align : Nat
deriving DecidableEq

def c_char : ctype := ⟨1, 1⟩
def c_bool : ctype := ⟨1, 1⟩
def c_uint8_t : ctype := ⟨1, 1⟩
def c_uint16_t : ctype := ⟨2, 2⟩
def c_uint32_t : ctype := ⟨4, 4⟩
def c_int : ctype := ⟨4, 4⟩
def c_pid_t : ctype := ⟨4, 4⟩
def c_uint64_t : ctype := ⟨8, 8⟩

/-- The array type `t[n]`. -/
def c_array (t : ctype) (n : Nat) : ctype := ⟨t.size * n, t.align⟩

/-- Smallest multiple of `a` that is at least `off`. -/
def align_up (off a : Nat) : Nat := (off + a - 1) / a * a

/-- Byte offsets of the members of a struct laid out from offset `off`:
each member goes to the next offset that is a multiple of its alignment. -/
def field_offsets : Nat → List ctype → List Nat
  | _, [] => []
  | off, f :: fs => align_up off f.align :: field_offsets (align_up off f.align + f.size) fs

/-- First byte offset after the last member of a struct laid out from `off`. -/
def fields_end : Nat → List ctype → Nat
  | off, [] => off
  | off, f :: fs => fields_end (align_up off f.align + f.size) fs

/-- Strictest alignment among the members. -/
def max_align (fs : List ctype) : Nat := fs.foldl (fun a f => max a f.align) 1

/-- Largest size among the members. -/
def max_size (fs : List ctype) : Nat := fs.foldl (fun a f => max a f.size) 0

/-- A struct type: members in declaration order, size rounded up to the alignment. -/
def c_struct (fs : List ctype) : ctype := ⟨align_up (fields_end 0 fs) (max_align fs), max_align fs⟩

/-- A union type: all members at offset 0, size of the largest rounded up. -/
def c_union (ms : List ctype) : ctype := ⟨align_up (max_size ms) (max_align ms), max_align ms⟩

/-- Members of `struct shared_buffer`. -/
def shared_buffer_fields : List ctype :=
  [c_uint64_t, c_uint64_t, c_int, c_int, c_bool, c_bool, c_bool]

/-- Members of `struct process_payload`. -/
def process_payload_fields : List ctype := [c_pid_t, c_array c_char 32]

/-- Members of `struct thread_payload`. -/
def thread_payload_fields : List ctype := [c_pid_t, c_pid_t, c_array c_char 32]

/-- Members of `struct sched_switch_payload`. -/
def sched_switch_payload_fields : List ctype :=
  [c_pid_t, c_int, c_array c_char 16, c_pid_t, c_int, c_array c_char 16, c_uint64_t]

/-- Members of the anonymous union `payload` of `struct entry`. -/
def payload_members : List ctype :=
  [c_struct process_payload_fields, c_struct thread_payload_fields,
   c_struct sched_switch_payload_fields]

/-- Members of `struct entry`: `kind`, `pad1`, `pad2`, `pad4`, `payload`. -/
def entry_fields : List ctype :=
  [c_uint8_t, c_uint8_t, c_uint16_t, c_uint32_t, c_union payload_members]

/-- Members of `struct event` (feeze_recorder_common.h). -/
def event_fields : List ctype :=
  [c_pid_t, c_int, c_array c_char 16, c_pid_t, c_int, c_array c_char 16, c_uint64_t]

def sizeof_shared_buffer : Nat := (c_struct shared_buffer_fields).size
def sizeof_entry : Nat := (c_struct entry_fields).size
def sizeof_event : Nat := (c_struct event_fields).size

/-- Byte offset of the member `payload` inside `struct entry` (member 4). -/
def offsetof_payload : Nat := (field_offsets 0 entry_fields).getD 4 0

/-- Byte offset, inside `struct entry`, of the first member (`pid`, `tid`,
`old_tid`) of the payload struct with the given members. -/
def offsetof_payload_first (payload_fields : List ctype) : Nat :=
  offsetof_payload + (field_offsets 0 payload_fields).getD 0 0

/-! ## Constants -/

def SHARED_MEM_SIZE : Nat := 64 * 1024 * 1024
def ENTRY_KIND_UNUSED : Nat := 0
def ENTRY_KIND_SCHED_SWITCH : Nat := 1
def ENTRY_KIND_PROCESS : Nat := 2
def ENTRY_KIND_THREAD : Nat := 3
def ENTRY_SIZE : Nat := 0x40
def MAX_NUM_THREADS : Nat := 4096
def MAX_NUM_PROCESSES : Nat := 4096

/-! ## Data -/

/-- A C array `char[n]`: exactly `n` bytes. -/
structure char_array (n : Nat) where
  bytes : List Nat
  len : bytes.length = n
deriving DecidableEq

/-- The array of `n` zero bytes. -/
def char_array.zeros (n : Nat) : char_array n := ⟨List.replicate n 0, by simp⟩

/-- Raw event, `struct event`. -/
structure event where
  old_pid : Int
  old_pri : Int
  old_name : char_array 16
  new_pid : Int
  new_pri : Int
  comm : char_array 16
  ns : Nat
deriving DecidableEq

structure process_payload where
  pid : Int
  name : char_array 32
deriving DecidableEq

structure thread_payload where
  tid : Int
  pid : Int
  name : char_array 32
deriving DecidableEq

structure sched_switch_payload where
  old_tid : Int
  old_pri : Int
  old_name : char_array 16
  new_tid : Int
  new_pri : Int
  new_name : char_array 16
  ns : Nat
deriving DecidableEq

/-- The union `payload` of `struct entry`, by the member that was written. -/
inductive payload where
  | p (x : process_payload)
  | t (x : thread_payload)
  | ss (x : sched_switch_payload)
deriving DecidableEq

/-- Log entry, `struct entry`. The pad members are never written by the code
and are left out. -/
structure entry where
  kind : Nat
  payload : payload
deriving DecidableEq

/-- A slot of the freshly truncated backing file: all bytes zero. -/
def entry.zero : entry := ⟨ENTRY_KIND_UNUSED, .p ⟨0, char_array.zeros 32⟩⟩

/-- What one `add_thread` call reads from `/proc`: the result of `get_tgid(tid)`
(`-1` when the lookup fails) and the buffer `get_process_name` fills for that pid. -/
structure lookup where
  tgid : Int
  pname : char_array 32
deriving DecidableEq

/-- One invocation of `handle_event(ctx, data, data_sz)`: `data = none` is a
NULL pointer; the two lookups are what `/proc` answers for the old and for the
new thread, should the code ask. -/
structure call where
  data : Option event
  data_sz : Nat
  old_lookup : lookup
  new_lookup : lookup
deriving DecidableEq

/-- The recorder state: the `exiting` flag, `eventcount`, the header field
`shmem->num_entries`, the entry slots behind the header, and the identity caches. -/
structure state where
  exiting : Bool
  eventcount : Nat
  num_entries : Nat
  entries : Nat → entry
  thread_tids : Nat → Int
  thread_pids : Nat → Int
  num_threads : Nat
  process_pids : Nat → Int
  num_processes : Nat

/-- State when the first event arrives: globals zero-initialised, `main` has
written `num_entries = 0` into the fresh (zero-filled) region. -/
def state.init : state :=
  { exiting := false, eventcount := 0, num_entries := 0, entries := fun _ => entry.zero,
    thread_tids := fun _ => 0, thread_pids := fun _ => 0, num_threads := 0,
    process_pids := fun _ => 0, num_processes := 0 }

/-! ## String helpers of libc -/

/-- The `n` bytes `strncpy(dst, src, n)` stores: the bytes of `src` up to its
first NUL, then NULs. (The `[]` case, source exhausted without a NUL, is only
reached when `n` exceeds the source array.) -/
def strncpy_bytes : List Nat → (n : Nat) → { l : List Nat // l.length = n }
  | _, 0 => ⟨[], rfl⟩
  | [], n + 1 => ⟨List.replicate (n + 1) 0, by simp⟩
  | c :: cs, n + 1 =>
    if c = 0 then ⟨List.replicate (n + 1) 0, by simp⟩
    else ⟨c :: (strncpy_bytes cs n).1, by simp [(strncpy_bytes cs n).2]⟩

/-- The call `strncpy(dst, src, n)` on a destination array of `m ≥ n` bytes. -/
def strncpy {m : Nat} (dst : char_array m) (src : List Nat) (n : Nat) (h : n ≤ m) :
    char_array m :=
  ⟨(strncpy_bytes src n).1 ++ dst.bytes.drop n, by
    simp [(strncpy_bytes src n).2, dst.len]; omega⟩

/-- The call `memset(dst, c, n)` on a destination array of `m ≥ n` bytes. -/
def memset {m : Nat} (dst : char_array m) (c : Nat) (n : Nat) (h : n ≤ m) : char_array m :=
  ⟨List.replicate n c ++ dst.bytes.drop n, by simp [dst.len]; omega⟩

/-- The call `memcpy(dst, src, n)` on a destination array of `m ≥ n` bytes from a source
array of `k ≥ n` bytes. -/
def memcpy {m k : Nat} (dst : char_array m) (src : char_array k) (n : Nat)
    (h : n ≤ m) (hk : n ≤ k) : char_array m :=
  ⟨src.bytes.take n ++ dst.bytes.drop n, by simp [dst.len, src.len]; omega⟩

/-! ## The publisher -/

/-- Byte offset of entry 0 in the region: `(char*) &shmem[1] - (char*) &shmem[0]`. -/
def entry_start_offset : Nat := sizeof_shared_buffer

/-- The test `(void*) &entries[i] > (void*) &((char*)shmem)[shm_size]`, as
byte offsets from the start of the region. The offsets are compared as natural
numbers: this is the C comparison as long as the offset of `&entries[i]` is
below `2^64`, which holds for every entry count inside a region of less than
`2^64` bytes; the theorems about arbitrary states assume it. -/
def beyond_region (shm_size i : Nat) : Bool :=
  decide (entry_start_offset + sizeof_entry * i > shm_size)

/-- Function `post_entry`: push the entry to the shared memory buffer. `shm_size` is
`SHARED_MEM_SIZE`. -/
def post_entry (shm_size : Nat) (s : state) (e : entry) : state :=
  if !s.exiting then
    let ec := s.eventcount
    if beyond_region shm_size ((ec + 1) % 2 ^ 64) then
      { s with exiting := true }
    else
      { s with
        entries := Function.update s.entries ec e
        num_entries := (ec + 1) % 2 ^ 64
        eventcount := (ec + 1) % 2 ^ 64 }
  else s

/-- The loop `while (i < n && a[i] != x) i++` with `k = n - i` iterations left
to try; returns the final `i`. -/
def index_loop (a : Nat → Int) (x : Int) : Nat → Nat → Nat
  | 0, i => i
  | k + 1, i => if a i ≠ x then index_loop a x k (i + 1) else i

/-- Function `thread_index`: index of `tid` in `thread_tids[0..num_threads-1]`, or `-1`. -/
def thread_index (s : state) (tid : Int) : Int :=
  let i := index_loop s.thread_tids tid s.num_threads 0
  if i < s.num_threads then (i : Int) else -1

/-- Function `process_index`: index of `pid` in `process_pids[0..num_processes-1]`, or `-1`. -/
def process_index (s : state) (pid : Int) : Int :=
  let i := index_loop s.process_pids pid s.num_processes 0
  if i < s.num_processes then (i : Int) else -1

/-- Function `add_process`: on first sight of `pid`, cache it and post a Process entry
named by what `get_process_name` left in the buffer (`pname`). -/
def add_process (shm_size : Nat) (s : state) (pid : Int) (pname : char_array 32) : state :=
  if process_index s pid < 0 ∧ s.num_processes < MAX_NUM_PROCESSES then
    let s1 := { s with
      process_pids := Function.update s.process_pids s.num_processes pid
      num_processes := s.num_processes + 1 }
    post_entry shm_size s1 ⟨ENTRY_KIND_PROCESS, .p ⟨pid, pname⟩⟩
  else s

/-- The name member of the Thread entry: `memset(name, 0, sizeof(name))`
followed by `strncpy(name, comm, sizeof(*comm))`, where `sizeof(*comm)` is
`sizeof(char)`. -/
def thread_name (comm : char_array 16) : char_array 32 :=
  strncpy (memset (char_array.zeros 32) 0 32 (by decide)) comm.bytes c_char.size (by decide)

/-- Function `add_thread`: on first sight of `tid`, look up its process, `add_process`
it, cache the thread and post a Thread entry. -/
def add_thread (shm_size : Nat) (s : state) (tid : Int) (name : char_array 16)
    (lk : lookup) : state :=
  if thread_index s tid < 0 ∧ s.num_threads < MAX_NUM_THREADS then
    let pid := lk.tgid
    let s1 := add_process shm_size s pid lk.pname
    let s2 := { s1 with
      thread_tids := Function.update s1.thread_tids s1.num_threads tid
      thread_pids := Function.update s1.thread_pids s1.num_threads pid
      num_threads := s1.num_threads + 1 }
    post_entry shm_size s2 ⟨ENTRY_KIND_THREAD, .t ⟨tid, pid, thread_name name⟩⟩
  else s

/-- The SchedSwitch entry `handle_event` builds from a raw event. -/
def sched_switch_entry (e : event) : entry :=
  ⟨ENTRY_KIND_SCHED_SWITCH, .ss
    { old_tid := e.old_pid
      old_pri := e.old_pri
      old_name := memcpy (char_array.zeros 16) e.old_name 16 (by decide) (by decide)
      new_tid := e.new_pid
      new_pri := e.new_pri
      new_name := memcpy (char_array.zeros 16) e.comm 16 (by decide) (by decide)
      ns := e.ns }⟩

/-- Function `handle_event`: the new state (the C function always returns 0). -/
def handle_event (shm_size : Nat) (s : state) (c : call) : state :=
  match c.data with
  | none => s
  | some e =>
    if !s.exiting ∧ c.data_sz = sizeof_event then
      if beyond_region shm_size ((s.eventcount + 1) % 2 ^ 64) then
        { s with exiting := true }
      else
        let s1 := add_thread shm_size s e.old_pid e.old_name c.old_lookup
        let s2 := add_thread shm_size s1 e.new_pid e.comm c.new_lookup
        post_entry shm_size s2 (sched_switch_entry e)
    else s

/-- The state after a sequence of `handle_event` calls. -/
def run (shm_size : Nat) (s : state) (cs : List call) : state :=
  cs.foldl (handle_event shm_size) s

/-- Function `sig_handler`: raise the exit flag. -/
def sig_handler (s : state) : state := { s with exiting := true }

/-! ## Start of `main` -/

/-- The header `struct shared_buffer` at offset 0 of the region. -/
structure shared_buffer where
  size : Nat
  num_entries : Nat
  entry_start_offset : Nat
  entry_size : Nat
  done : Bool
  blabla : Bool
  blublu : Bool
deriving DecidableEq

/-- How the start of `main` ends. -/
inductive main_start where
  /-- The call `exit(1)` at the entry-size check, before `open`. -/
  | refused (status : Nat)
  /-- The jump to `cleanup` after `open`, `ftruncate` or `mmap` failed; returns `status`. -/
  | failed (status : Nat)
  /-- The header is written and recording begins. -/
  | recording (hdr : shared_buffer)
deriving DecidableEq

/-- Function `main` up to the publication of the header, for the two sizes it computes
by pointer difference (`entry_start_offset`, `entry_size`) and the outcomes of
`open`, `ftruncate` and `mmap`. -/
def main_from (shm_size entry_start_offset entry_size : Nat)
    (open_ok ftruncate_ok mmap_ok : Bool) : main_start :=
  if entry_size ≠ ENTRY_SIZE then .refused 1
  else if !open_ok then .failed 1
  else if !ftruncate_ok then .failed 1
  else if !mmap_ok then .failed 1
  else .recording
    { num_entries := 0, entry_start_offset := entry_start_offset, entry_size := entry_size,
      done := false, blabla := true, blublu := true, size := shm_size }

/-- Function `main` with the sizes the compiler computes for the declared types. -/
def main (open_ok ftruncate_ok mmap_ok : Bool) : main_start :=
  main_from SHARED_MEM_SIZE sizeof_shared_buffer sizeof_entry open_ok ftruncate_ok mmap_ok

/-! ## Views of the state -/

/-- The entries visible to a reader: slots `0 .. num_entries-1`. -/
def state.log (s : state) : List entry := (List.range s.num_entries).map s.entries

/-- The thread ids in the thread cache. -/
def state.tids (s : state) : List Int := (List.range s.num_threads).map s.thread_tids

/-- The process ids in the process cache. -/
def state.pids (s : state) : List Int := (List.range s.num_processes).map s.process_pids

/-! ## Abstraction used in the proofs

The caches and the visible log as lists, and the four operations on them. The
theorems `*_view` show that the C functions above act on the views exactly so. -/

/-- The exit flag, the visible log and the caches (as lists). -/
structure view where
  exiting : Bool
  log : List entry
  tids : List Int
  tpids : List Int
  pids : List Int

/-- The thread pids in the thread cache (parallel to `state.tids`). -/
def state.tpids (s : state) : List Int := (List.range s.num_threads).map s.thread_pids

def state.view (s : state) : view := ⟨s.exiting, s.log, s.tids, s.tpids, s.pids⟩

def view.post (sz : Nat) (v : view) (e : entry) : view :=
  if v.exiting then v
  else if beyond_region sz (v.log.length + 1) then { v with exiting := true }
  else { v with log := v.log ++ [e] }

def view.add_process (sz : Nat) (v : view) (pid : Int) (pname : char_array 32) : view :=
  if pid ∉ v.pids ∧ v.pids.length < MAX_NUM_PROCESSES then
    view.post sz { v with pids := v.pids ++ [pid] } ⟨ENTRY_KIND_PROCESS, .p ⟨pid, pname⟩⟩
  else v

def view.add_thread (sz : Nat) (v : view) (tid : Int) (name : char_array 16) (lk : lookup) :
    view :=
  if tid ∉ v.tids ∧ v.tids.length < MAX_NUM_THREADS then
    let v1 := view.add_process sz v lk.tgid lk.pname
    view.post sz { v1 with tids := v1.tids ++ [tid], tpids := v1.tpids ++ [lk.tgid] }
      ⟨ENTRY_KIND_THREAD, .t ⟨tid, lk.tgid, thread_name name⟩⟩
  else v

def view.handle_event (sz : Nat) (v : view) (c : call) : view :=
  match c.data with
  | none => v
  | some e =>
    if v.exiting = false ∧ c.data_sz = sizeof_event then
      if beyond_region sz (v.log.length + 1) then { v with exiting := true }
      else
        let v1 := view.add_thread sz v e.old_pid e.old_name c.old_lookup
        let v2 := view.add_thread sz v1 e.new_pid e.comm c.new_lookup
        view.post sz v2 (sched_switch_entry e)
    else v

/-- The private event count mirrors the header's `num_entries`, and `ec+1`
does not wrap. -/
def state.coherent (s : state) : Prop :=
  s.eventcount = s.num_entries ∧ s.eventcount + 1 < 2 ^ 64

/-- The log entry read as a Process entry. -/
def entry.as_process (e : entry) : Option process_payload :=
  if e.kind = ENTRY_KIND_PROCESS then
    match e.payload with
    | .p x => some x
    | _ => none
  else none

/-- The log entry read as a Thread entry. -/
def entry.as_thread (e : entry) : Option thread_payload :=
  if e.kind = ENTRY_KIND_THREAD then
    match e.payload with
    | .t x => some x
    | _ => none
  else none

/-- The log entry read as a SchedSwitch entry. -/
def entry.as_switch (e : entry) : Option sched_switch_payload :=
  if e.kind = ENTRY_KIND_SCHED_SWITCH then
    match e.payload with
    | .ss x => some x
    | _ => none
  else none

/-- The pid of a Process entry. -/
def entry.process_pid (e : entry) : Option Int := e.as_process.map (fun x => x.pid)

/-- The tid of a Thread entry. -/
def entry.thread_tid (e : entry) : Option Int := e.as_thread.map (fun x => x.tid)

/-- Number of Process entries with the given pid in a log. -/
def count_process (log : List entry) (pid : Int) : Nat :=
  log.countP (fun e => decide (e.process_pid = some pid))

/-- Number of Thread entries with the given tid in a log. -/
def count_thread (log : List entry) (tid : Int) : Nat :=
  log.countP (fun e => decide (e.thread_tid = some tid))

/-- Every identity entry of the log is for a cached id, and no id has two. -/
def view.uniq (v : view) : Prop :=
  (∀ pid, count_process v.log pid ≤ 1) ∧ (∀ pid, pid ∉ v.pids → count_process v.log pid = 0) ∧
  (∀ tid, count_thread v.log tid ≤ 1) ∧ (∀ tid, tid ∉ v.tids → count_thread v.log tid = 0)

/-- The kind of the entry agrees with the payload that was written. -/
def entry.wf (e : entry) : Prop :=
  e.as_process.isSome ∨ e.as_thread.isSome ∨ e.as_switch.isSome

/-- Every Thread entry is preceded by the Process entry of its pid, every
SchedSwitch entry by the Thread entries of its two tids. -/
def log_ordered (log : List entry) : Prop :=
  ∀ (i : Nat) (e : entry), log[i]? = some e →
    e.wf ∧
    (∀ t, e.as_thread = some t →
      ∃ k, k < i ∧ ∃ e', log[k]? = some e' ∧ e'.process_pid = some t.pid) ∧
    (∀ x, e.as_switch = some x →
      (∃ j, j < i ∧ ∃ e', log[j]? = some e' ∧ e'.thread_tid = some x.old_tid) ∧
      (∃ j, j < i ∧ ∃ e', log[j]? = some e' ∧ e'.thread_tid = some x.new_tid))

/-- While the exit flag is clear, every cached id has its entry in the log. -/
def view.cache_logged (v : view) : Prop :=
  v.exiting = false →
    (∀ tid ∈ v.tids, ∃ e ∈ v.log, e.thread_tid = some tid) ∧
    (∀ pid ∈ v.pids, ∃ e ∈ v.log, e.process_pid = some pid)

/-- The process cache is no larger than the thread cache, which is within capacity. -/
def view.counts (v : view) : Prop :=
  v.pids.length ≤ v.tids.length ∧ v.tids.length ≤ MAX_NUM_THREADS

/-- The thread cache holds distinct ids, all from `T`. -/
def view.within (T : List Int) (v : view) : Prop :=
  v.tids.Nodup ∧ ∀ tid ∈ v.tids, tid ∈ T

/-- The thread ids a call carries. -/
def call_tids (c : call) : List Int :=
  match c.data with
  | none => []
  | some e => [e.old_pid, e.new_pid]

/-- The thread ids occurring in a sequence of calls. -/
def run_tids : List call → List Int
  | [] => []
  | c :: cs => call_tids c ++ run_tids cs

/-- The invariant behind the visibility order, for thread ids drawn from `T`. -/
def view.good (T : List Int) (v : view) : Prop :=
  v.within T ∧ v.counts ∧ v.cache_logged ∧ log_ordered v.log

/-- One or more operations took `v` to `v'`, appending `l` to the log: the exit
flag is never cleared, and entries are appended only while it is clear and only
inside the region. -/
def view.step (sz : Nat) (v v' : view) (l : List entry) : Prop :=
  v'.log = v.log ++ l ∧ (v'.exiting = false → v.exiting = false) ∧
  (l = [] ∨ (v.exiting = false ∧ beyond_region sz v'.log.length = false))

/-- The entry is a Process or a Thread entry. -/
def entry.is_identity (e : entry) : Bool := e.as_process.isSome || e.as_thread.isSome

/-- The SchedSwitch payload that records a raw event field by field. -/
def event.payload (e : event) : sched_switch_payload :=
  { old_tid := e.old_pid, old_pri := e.old_pri, old_name := e.old_name,
    new_tid := e.new_pid, new_pri := e.new_pri, new_name := e.comm, ns := e.ns }

/-- The process cache is no larger than the thread cache, the thread cache is
within capacity, and the pid recorded for every cached thread is in the
process cache. -/
def view.owned (v : view) : Prop :=
  v.counts ∧ ∀ p ∈ v.tpids, p ∈ v.pids

/-- The cache invariant on the C state: `num_processes <= num_threads <=
MAX_NUM_THREADS`, and `thread_pids[i]` occurs in `process_pids[0..num_processes-1]`
for every `i < num_threads`. -/
def state.balanced (s : state) : Prop :=
  s.num_processes ≤ s.num_threads ∧ s.num_threads ≤ MAX_NUM_THREADS ∧
  ∀ i, i < s.num_threads → ∃ j, j < s.num_processes ∧ s.process_pids j = s.thread_pids i

/-! ## Sample inputs -/

/-- The comm holding the given bytes, NUL-padded (or cut) to 16 bytes. -/
def comm_of (l : List Nat) : char_array 16 := ⟨(l ++ List.replicate 16 0).take 16, by simp⟩

/-- A switch from thread 100 (comm "ab") to thread 200 (comm "cde"). -/
def sample_event : event := ⟨100, 120, comm_of [97, 98], 200, 120, comm_of [99, 100, 101], 12345⟩

/-- The sample event delivered while `/proc` knows thread 100 as a thread of
process 50 and no longer knows thread 200. -/
def sample_call : call :=
  ⟨some sample_event, 56, ⟨50, char_array.zeros 32⟩, ⟨-1, char_array.zeros 32⟩⟩

/-- A state whose thread cache is full. -/
def sample_full_state : state := { state.init with num_threads := 4096 }

/-! ## Sizes, loops and views -/

theorem sizeof_entry_eq : sizeof_entry = 64 := by decide
theorem entry_start_offset_eq : entry_start_offset = 32 := by decide
theorem sizeof_event_eq : sizeof_event = 56 := by decide

theorem beyond_region_false_iff (sz i : Nat) : beyond_region sz i = false ↔ 32 + 64 * i ≤ sz := by
  simp [beyond_region, sizeof_entry_eq, entry_start_offset_eq]

theorem index_loop_ge (a : Nat → Int) (x : Int) (k i : Nat) : i ≤ index_loop a x k i := by
  induction k generalizing i with
  | zero => simp [index_loop]
  | succ k ih =>
    simp only [index_loop]
    split
    · exact Nat.le_trans (Nat.le_succ i) (ih (i + 1))
    · exact Nat.le_refl i

theorem index_loop_le (a : Nat → Int) (x : Int) (k i : Nat) : index_loop a x k i ≤ i + k := by
  induction k generalizing i with
  | zero => simp [index_loop]
  | succ k ih =>
    simp only [index_loop]
    split
    · have := ih (i + 1); omega
    · omega

theorem index_loop_lt_iff (a : Nat → Int) (x : Int) (k i : Nat) :
    index_loop a x k i < i + k ↔ ∃ j, i ≤ j ∧ j < i + k ∧ a j = x := by
  induction k generalizing i with
  | zero =>
    simp only [index_loop, Nat.add_zero, Nat.lt_irrefl, false_iff]
    rintro ⟨j, h1, h2, -⟩
    omega
  | succ k ih =>
    simp only [index_loop]
    split
    · rename_i hne
      rw [show i + (k + 1) = (i + 1) + k by omega, ih (i + 1)]
      constructor
      · rintro ⟨j, h1, h2, h3⟩
        exact ⟨j, by omega, h2, h3⟩
      · rintro ⟨j, h1, h2, h3⟩
        refine ⟨j, ?_, h2, h3⟩
        rcases Nat.eq_or_lt_of_le h1 with h | h
        · subst h; exact absurd h3 hne
        · exact h
    · rename_i heq
      have heq : a i = x := by simpa using heq
      constructor
      · intro _; exact ⟨i, Nat.le_refl i, by omega, heq⟩
      · intro _; omega

theorem mem_tids_iff (s : state) (tid : Int) :
    tid ∈ s.tids ↔ ∃ j, j < s.num_threads ∧ s.thread_tids j = tid := by
  simp [state.tids]

theorem mem_pids_iff (s : state) (pid : Int) :
    pid ∈ s.pids ↔ ∃ j, j < s.num_processes ∧ s.process_pids j = pid := by
  simp [state.pids]

theorem thread_index_neg_iff (s : state) (tid : Int) :
    thread_index s tid < 0 ↔ tid ∉ s.tids := by
  have h := index_loop_lt_iff s.thread_tids tid s.num_threads 0
  simp only [Nat.zero_add, Nat.zero_le, true_and] at h
  rw [mem_tids_iff, ← h]
  unfold thread_index
  simp only
  split
  · rename_i hlt
    simp [hlt]
  · rename_i hlt
    simp [hlt]

theorem process_index_neg_iff (s : state) (pid : Int) :
    process_index s pid < 0 ↔ pid ∉ s.pids := by
  have h := index_loop_lt_iff s.process_pids pid s.num_processes 0
  simp only [Nat.zero_add, Nat.zero_le, true_and] at h
  rw [mem_pids_iff, ← h]
  unfold process_index
  simp only
  split
  · rename_i hlt
    simp [hlt]
  · rename_i hlt
    simp [hlt]

theorem map_update_range_succ {α : Type} (f : Nat → α) (n : Nat) (v : α) :
    (List.range (n + 1)).map (Function.update f n v) = (List.range n).map f ++ [v] := by
  rw [List.range_succ, List.map_append]
  congr 1
  · apply List.map_congr_left
    intro i hi
    have : i ≠ n := Nat.ne_of_lt (List.mem_range.mp hi)
    simp [Function.update, this]
  · simp

/-! ## The C functions act on the views as the list operations do -/

theorem view_ext {v w : view} (h1 : v.exiting = w.exiting) (h2 : v.log = w.log)
    (h3 : v.tids = w.tids) (h4 : v.tpids = w.tpids) (h5 : v.pids = w.pids) : v = w := by
  cases v; cases w; simp_all

theorem log_length (s : state) : s.log.length = s.num_entries := by simp [state.log]
theorem tids_length (s : state) : s.tids.length = s.num_threads := by simp [state.tids]
theorem tpids_length (s : state) : s.tpids.length = s.num_threads := by simp [state.tpids]
theorem pids_length (s : state) : s.pids.length = s.num_processes := by simp [state.pids]

theorem log_getElem? (s : state) (i : Nat) (h : i < s.num_entries) :
    s.log[i]? = some (s.entries i) := by
  simp [state.log, h]

theorem post_entry_of_exiting (sz : Nat) (s : state) (e : entry) (h : s.exiting = true) :
    post_entry sz s e = s := by
  simp [post_entry, h]

theorem post_entry_of_full (sz : Nat) (s : state) (e : entry) (h : s.exiting = false)
    (hb : beyond_region sz ((s.eventcount + 1) % 2 ^ 64) = true) :
    post_entry sz s e = { s with exiting := true } := by
  simp only [post_entry, h, Bool.not_false, if_true, hb]

theorem post_entry_of_room (sz : Nat) (s : state) (e : entry) (h : s.exiting = false)
    (hb : beyond_region sz ((s.eventcount + 1) % 2 ^ 64) = false) :
    post_entry sz s e =
      { s with
        entries := Function.update s.entries s.eventcount e
        num_entries := (s.eventcount + 1) % 2 ^ 64
        eventcount := (s.eventcount + 1) % 2 ^ 64 } := by
  simp only [post_entry, h, Bool.not_false, if_true, hb, Bool.false_eq_true, if_false]

theorem post_entry_view (sz : Nat) (hsz : sz < 2 ^ 64) (s : state) (e : entry)
    (hc : s.coherent) :
    (post_entry sz s e).coherent ∧ (post_entry sz s e).view = view.post sz s.view e := by
  obtain ⟨h1, h2⟩ := hc
  have hmod : (s.eventcount + 1) % 2 ^ 64 = s.eventcount + 1 := Nat.mod_eq_of_lt h2
  cases hex : s.exiting with
  | true =>
    rw [post_entry_of_exiting sz s e hex]
    refine ⟨⟨h1, h2⟩, ?_⟩
    simp [view.post, state.view, hex]
  | false =>
    cases hb : beyond_region sz ((s.eventcount + 1) % 2 ^ 64) with
    | true =>
      rw [post_entry_of_full sz s e hex hb]
      refine ⟨⟨h1, h2⟩, ?_⟩
      rw [hmod, h1] at hb
      simp [view.post, state.view, hex, log_length, hb, state.log, state.tids, state.tpids,
        state.pids]
    | false =>
      rw [post_entry_of_room sz s e hex hb]
      rw [hmod] at hb ⊢
      have hfit := (beyond_region_false_iff sz _).mp hb
      refine ⟨⟨rfl, ?_⟩, ?_⟩
      · show s.eventcount + 1 + 1 < 2 ^ 64
        omega
      · rw [h1] at hb
        have hv : view.post sz s.view e = { s.view with log := s.log ++ [e] } := by
          simp [view.post, state.view, hex, log_length, hb]
        rw [hv, h1]
        apply view_ext <;> try rfl
        exact map_update_range_succ s.entries s.num_entries e

theorem add_process_view (sz : Nat) (hsz : sz < 2 ^ 64) (s : state) (pid : Int)
    (pname : char_array 32) (hc : s.coherent) :
    (add_process sz s pid pname).coherent ∧
      (add_process sz s pid pname).view = view.add_process sz s.view pid pname := by
  unfold add_process view.add_process
  have hcond : (process_index s pid < 0 ∧ s.num_processes < MAX_NUM_PROCESSES) ↔
      (pid ∉ s.view.pids ∧ s.view.pids.length < MAX_NUM_PROCESSES) := by
    rw [process_index_neg_iff]
    simp [state.view, pids_length]
  by_cases h : process_index s pid < 0 ∧ s.num_processes < MAX_NUM_PROCESSES
  · rw [if_pos h, if_pos (hcond.mp h)]
    have := post_entry_view sz hsz
      { s with
        process_pids := Function.update s.process_pids s.num_processes pid
        num_processes := s.num_processes + 1 }
      ⟨ENTRY_KIND_PROCESS, .p ⟨pid, pname⟩⟩ hc
    refine ⟨this.1, ?_⟩
    rw [this.2]
    congr 1
    apply view_ext <;> try rfl
    exact map_update_range_succ s.process_pids s.num_processes pid
  · rw [if_neg h, if_neg (fun h' => h (hcond.mpr h'))]
    exact ⟨hc, rfl⟩

theorem add_thread_view (sz : Nat) (hsz : sz < 2 ^ 64) (s : state) (tid : Int)
    (name : char_array 16) (lk : lookup) (hc : s.coherent) :
    (add_thread sz s tid name lk).coherent ∧
      (add_thread sz s tid name lk).view = view.add_thread sz s.view tid name lk := by
  unfold add_thread view.add_thread
  have hcond : (thread_index s tid < 0 ∧ s.num_threads < MAX_NUM_THREADS) ↔
      (tid ∉ s.view.tids ∧ s.view.tids.length < MAX_NUM_THREADS) := by
    rw [thread_index_neg_iff]
    simp [state.view, tids_length]
  by_cases h : thread_index s tid < 0 ∧ s.num_threads < MAX_NUM_THREADS
  · rw [if_pos h, if_pos (hcond.mp h)]
    obtain ⟨hc1, hv1⟩ := add_process_view sz hsz s lk.tgid lk.pname hc
    simp only
    have := post_entry_view sz hsz
      { add_process sz s lk.tgid lk.pname with
        thread_tids := Function.update (add_process sz s lk.tgid lk.pname).thread_tids
          (add_process sz s lk.tgid lk.pname).num_threads tid
        thread_pids := Function.update (add_process sz s lk.tgid lk.pname).thread_pids
          (add_process sz s lk.tgid lk.pname).num_threads lk.tgid
        num_threads := (add_process sz s lk.tgid lk.pname).num_threads + 1 }
      ⟨ENTRY_KIND_THREAD, .t ⟨tid, lk.tgid, thread_name name⟩⟩ hc1
    refine ⟨this.1, ?_⟩
    rw [this.2, ← hv1]
    congr 1
    apply view_ext <;> try rfl
    · exact map_update_range_succ _ _ tid
    · exact map_update_range_succ _ _ lk.tgid
  · rw [if_neg h, if_neg (fun h' => h (hcond.mpr h'))]
    exact ⟨hc, rfl⟩

theorem handle_event_view (sz : Nat) (hsz : sz < 2 ^ 64) (s : state) (c : call)
    (hc : s.coherent) :
    (handle_event sz s c).coherent ∧
      (handle_event sz s c).view = view.handle_event sz s.view c := by
  unfold handle_event view.handle_event
  cases hd : c.data with
  | none => exact ⟨hc, rfl⟩
  | some e =>
    simp only
    have hmod : (s.eventcount + 1) % 2 ^ 64 = s.view.log.length + 1 := by
      rw [Nat.mod_eq_of_lt hc.2, hc.1]; simp [state.view, log_length]
    by_cases h : s.exiting = false ∧ c.data_sz = sizeof_event
    · have h' : (!s.exiting) = true ∧ c.data_sz = sizeof_event := by simpa using h
      have h'' : s.view.exiting = false ∧ c.data_sz = sizeof_event := h
      rw [if_pos h', if_pos h'', hmod]
      cases hb : beyond_region sz (s.view.log.length + 1) with
      | true =>
        simp only [if_true]
        exact ⟨hc, by simp [state.view, state.log, state.tids, state.tpids, state.pids]⟩
      | false =>
        simp only [Bool.false_eq_true, if_false]
        obtain ⟨hc1, hv1⟩ := add_thread_view sz hsz s e.old_pid e.old_name c.old_lookup hc
        obtain ⟨hc2, hv2⟩ := add_thread_view sz hsz _ e.new_pid e.comm c.new_lookup hc1
        obtain ⟨hc3, hv3⟩ := post_entry_view sz hsz _ (sched_switch_entry e) hc2
        exact ⟨hc3, by rw [hv3, hv2, hv1]⟩
    · have h' : ¬ ((!s.exiting) = true ∧ c.data_sz = sizeof_event) := by simpa using h
      have h'' : ¬ (s.view.exiting = false ∧ c.data_sz = sizeof_event) := h
      rw [if_neg h', if_neg h'']
      exact ⟨hc, rfl⟩

theorem init_coherent : state.init.coherent := by
  constructor
  · rfl
  · show 0 + 1 < 2 ^ 64
    norm_num

theorem run_view (sz : Nat) (hsz : sz < 2 ^ 64) (cs : List call) (s : state) (hc : s.coherent) :
    (run sz s cs).coherent ∧ (run sz s cs).view = cs.foldl (view.handle_event sz) s.view := by
  induction cs generalizing s with
  | nil => exact ⟨hc, rfl⟩
  | cons c cs ih =>
    obtain ⟨hc1, hv1⟩ := handle_event_view sz hsz s c hc
    have := ih (handle_event sz s c) hc1
    simp only [run, List.foldl_cons] at this ⊢
    rw [← hv1]
    exact this

/-! ## Identity uniqueness -/

theorem view_post_cases (sz : Nat) (v : view) (e : entry) :
    (v.exiting = true ∧ view.post sz v e = v) ∨
    (v.exiting = false ∧ beyond_region sz (v.log.length + 1) = true ∧
      view.post sz v e = { v with exiting := true }) ∨
    (v.exiting = false ∧ beyond_region sz (v.log.length + 1) = false ∧
      view.post sz v e = { v with log := v.log ++ [e] }) := by
  unfold view.post
  cases hex : v.exiting <;> cases hb : beyond_region sz (v.log.length + 1) <;> simp

@[simp] theorem process_pid_process (pid : Int) (nm : char_array 32) :
    entry.process_pid ⟨ENTRY_KIND_PROCESS, .p ⟨pid, nm⟩⟩ = some pid := rfl

@[simp] theorem thread_tid_process (pid : Int) (nm : char_array 32) :
    entry.thread_tid ⟨ENTRY_KIND_PROCESS, .p ⟨pid, nm⟩⟩ = none := rfl

@[simp] theorem as_switch_process (pid : Int) (nm : char_array 32) :
    entry.as_switch ⟨ENTRY_KIND_PROCESS, .p ⟨pid, nm⟩⟩ = none := rfl

@[simp] theorem process_pid_thread (tid pid : Int) (nm : char_array 32) :
    entry.process_pid ⟨ENTRY_KIND_THREAD, .t ⟨tid, pid, nm⟩⟩ = none := rfl

@[simp] theorem thread_tid_thread (tid pid : Int) (nm : char_array 32) :
    entry.thread_tid ⟨ENTRY_KIND_THREAD, .t ⟨tid, pid, nm⟩⟩ = some tid := rfl

@[simp] theorem as_thread_thread (tid pid : Int) (nm : char_array 32) :
    entry.as_thread ⟨ENTRY_KIND_THREAD, .t ⟨tid, pid, nm⟩⟩ = some ⟨tid, pid, nm⟩ := rfl

@[simp] theorem as_switch_thread (tid pid : Int) (nm : char_array 32) :
    entry.as_switch ⟨ENTRY_KIND_THREAD, .t ⟨tid, pid, nm⟩⟩ = none := rfl

@[simp] theorem process_pid_switch (e : event) :
    (sched_switch_entry e).process_pid = none := rfl

@[simp] theorem thread_tid_switch (e : event) :
    (sched_switch_entry e).thread_tid = none := rfl

@[simp] theorem as_thread_switch (e : event) :
    (sched_switch_entry e).as_thread = none := rfl

theorem count_process_append (l : List entry) (e : entry) (pid : Int) :
    count_process (l ++ [e]) pid =
      count_process l pid + (if e.process_pid = some pid then 1 else 0) := by
  simp [count_process, List.countP_append, List.countP_cons]

theorem count_thread_append (l : List entry) (e : entry) (tid : Int) :
    count_thread (l ++ [e]) tid =
      count_thread l tid + (if e.thread_tid = some tid then 1 else 0) := by
  simp [count_thread, List.countP_append, List.countP_cons]

/-- Posting an entry that is no identity entry keeps `uniq`. -/
theorem uniq_post_other (sz : Nat) (v : view) (e : entry) (h : v.uniq)
    (hp : e.process_pid = none) (ht : e.thread_tid = none) : (view.post sz v e).uniq := by
  rcases view_post_cases sz v e with ⟨-, h'⟩ | ⟨-, -, h'⟩ | ⟨-, -, h'⟩ <;> rw [h']
  · exact h
  · exact h
  · obtain ⟨h1, h2, h3, h4⟩ := h
    refine ⟨?_, ?_, ?_, ?_⟩
    · intro pid; simpa [count_process_append, hp] using h1 pid
    · intro pid hpid; simpa [count_process_append, hp] using h2 pid hpid
    · intro tid; simpa [count_thread_append, ht] using h3 tid
    · intro tid htid; simpa [count_thread_append, ht] using h4 tid htid

theorem uniq_add_process (sz : Nat) (v : view) (pid : Int) (nm : char_array 32)
    (h : v.uniq) : (view.add_process sz v pid nm).uniq := by
  unfold view.add_process
  split
  · rename_i hcond
    obtain ⟨h1, h2, h3, h4⟩ := h
    have h0 := h2 pid hcond.1
    rcases view_post_cases sz { v with pids := v.pids ++ [pid] }
      ⟨ENTRY_KIND_PROCESS, .p ⟨pid, nm⟩⟩ with ⟨-, h'⟩ | ⟨-, -, h'⟩ | ⟨-, -, h'⟩ <;> rw [h']
    · refine ⟨h1, ?_, h3, h4⟩
      intro q hq
      exact h2 q (fun hm => hq (List.mem_append_left _ hm))
    · refine ⟨h1, ?_, h3, h4⟩
      intro q hq
      exact h2 q (fun hm => hq (List.mem_append_left _ hm))
    · refine ⟨?_, ?_, ?_, ?_⟩
      · intro q
        simp only [count_process_append, process_pid_process]
        by_cases hq : pid = q
        · subst hq; simp [h0]
        · have : ¬ (some pid = some q) := by simpa using hq
          simp only [this, if_false]; exact h1 q
      · intro q hq
        simp only [List.mem_append, List.mem_singleton, not_or] at hq
        simp only [count_process_append, process_pid_process]
        have : ¬ (some pid = some q) := by
          intro hh; exact hq.2 (Option.some.inj hh).symm
        simp only [this, if_false]; exact h2 q hq.1
      · intro tid; simpa [count_thread_append] using h3 tid
      · intro tid htid; simpa [count_thread_append] using h4 tid htid
  · exact h

theorem uniq_add_thread (sz : Nat) (v : view) (tid : Int) (name : char_array 16)
    (lk : lookup) (h : v.uniq) : (view.add_thread sz v tid name lk).uniq := by
  unfold view.add_thread
  split
  · rename_i hcond
    have hu := uniq_add_process sz v lk.tgid lk.pname h
    have htids : (view.add_process sz v lk.tgid lk.pname).tids = v.tids := by
      unfold view.add_process
      split
      · rcases view_post_cases sz { v with pids := v.pids ++ [lk.tgid] }
          ⟨ENTRY_KIND_PROCESS, .p ⟨lk.tgid, lk.pname⟩⟩ with
          ⟨-, h'⟩ | ⟨-, -, h'⟩ | ⟨-, -, h'⟩ <;> rw [h']
      · rfl
    obtain ⟨h1, h2, h3, h4⟩ := hu
    have h0 := h4 tid (by rw [htids]; exact hcond.1)
    simp only
    rcases view_post_cases sz
      { view.add_process sz v lk.tgid lk.pname with
        tids := (view.add_process sz v lk.tgid lk.pname).tids ++ [tid]
        tpids := (view.add_process sz v lk.tgid lk.pname).tpids ++ [lk.tgid] }
      ⟨ENTRY_KIND_THREAD, .t ⟨tid, lk.tgid, thread_name name⟩⟩ with
      ⟨-, h'⟩ | ⟨-, -, h'⟩ | ⟨-, -, h'⟩ <;> rw [h']
    · refine ⟨h1, h2, h3, ?_⟩
      intro q hq
      exact h4 q (fun hm => hq (List.mem_append_left _ hm))
    · refine ⟨h1, h2, h3, ?_⟩
      intro q hq
      exact h4 q (fun hm => hq (List.mem_append_left _ hm))
    · refine ⟨?_, ?_, ?_, ?_⟩
      · intro pid; simpa [count_process_append] using h1 pid
      · intro pid hpid; simpa [count_process_append] using h2 pid hpid
      · intro q
        simp only [count_thread_append, thread_tid_thread]
        by_cases hq : tid = q
        · subst hq; simp [h0]
        · have : ¬ (some tid = some q) := by simpa using hq
          simp only [this, if_false]; exact h3 q
      · intro q hq
        simp only [List.mem_append, List.mem_singleton, not_or] at hq
        simp only [count_thread_append, thread_tid_thread]
        have : ¬ (some tid = some q) := by
          intro hh; exact hq.2 (Option.some.inj hh).symm
        simp only [this, if_false]; exact h4 q hq.1
  · exact h

theorem uniq_handle_event (sz : Nat) (v : view) (c : call) (h : v.uniq) :
    (view.handle_event sz v c).uniq := by
  unfold view.handle_event
  split
  · exact h
  · split
    · split
      · exact h
      · exact uniq_post_other sz _ _
          (uniq_add_thread sz _ _ _ _ (uniq_add_thread sz _ _ _ _ h)) rfl rfl
    · exact h

theorem uniq_foldl (sz : Nat) (cs : List call) (v : view) (h : v.uniq) :
    (cs.foldl (view.handle_event sz) v).uniq := by
  induction cs generalizing v with
  | nil => exact h
  | cons c cs ih => exact ih _ (uniq_handle_event sz v c h)

theorem init_view : state.init.view = ⟨false, [], [], [], []⟩ := rfl

theorem uniq_init : state.init.view.uniq := by
  rw [init_view]
  simp [view.uniq, count_process, count_thread]

/-! ## Order of the log -/

theorem wf_process (pid : Int) (nm : char_array 32) :
    entry.wf ⟨ENTRY_KIND_PROCESS, .p ⟨pid, nm⟩⟩ := Or.inl rfl

theorem wf_thread (tid pid : Int) (nm : char_array 32) :
    entry.wf ⟨ENTRY_KIND_THREAD, .t ⟨tid, pid, nm⟩⟩ := Or.inr (Or.inl rfl)

theorem wf_switch (e : event) : (sched_switch_entry e).wf := Or.inr (Or.inr rfl)

theorem getElem?_append_of_mem {l : List entry} {e' : entry} (e : entry) (h : e' ∈ l) :
    ∃ k, k < l.length ∧ (l ++ [e])[k]? = some e' := by
  obtain ⟨k, hk⟩ := List.mem_iff_getElem?.mp h
  obtain ⟨hlt, -⟩ := List.getElem?_eq_some.mp hk
  exact ⟨k, hlt, by rw [List.getElem?_append_left hlt]; exact hk⟩

theorem log_ordered_append (l : List entry) (e : entry) (ho : log_ordered l) (hw : e.wf)
    (ht : ∀ t, e.as_thread = some t → ∃ e' ∈ l, e'.process_pid = some t.pid)
    (hs : ∀ x, e.as_switch = some x →
      (∃ e' ∈ l, e'.thread_tid = some x.old_tid) ∧
      (∃ e' ∈ l, e'.thread_tid = some x.new_tid)) :
    log_ordered (l ++ [e]) := by
  intro i e0 h
  by_cases hi : i < l.length
  · rw [List.getElem?_append_left hi] at h
    obtain ⟨a, b, c⟩ := ho i e0 h
    refine ⟨a, ?_, ?_⟩
    · intro t ht'
      obtain ⟨k, hk, e', he', hp⟩ := b t ht'
      exact ⟨k, hk, e', by rw [List.getElem?_append_left (by omega)]; exact he', hp⟩
    · intro x hx
      obtain ⟨⟨j, hj, e', he', hp⟩, ⟨j2, hj2, e2, he2, hp2⟩⟩ := c x hx
      exact ⟨⟨j, hj, e', by rw [List.getElem?_append_left (by omega)]; exact he', hp⟩,
        ⟨j2, hj2, e2, by rw [List.getElem?_append_left (by omega)]; exact he2, hp2⟩⟩
  · obtain ⟨hlt, -⟩ := List.getElem?_eq_some.mp h
    have hil : i = l.length := by
      simp only [List.length_append, List.length_singleton] at hlt
      omega
    subst hil
    rw [List.getElem?_concat_length] at h
    have he : e = e0 := Option.some.inj h
    subst he
    refine ⟨hw, ?_, ?_⟩
    · intro t ht'
      obtain ⟨e', hm, hp⟩ := ht t ht'
      obtain ⟨k, hk, hk'⟩ := getElem?_append_of_mem e hm
      exact ⟨k, hk, e', hk', hp⟩
    · intro x hx
      obtain ⟨⟨e1, hm1, hp1⟩, ⟨e2, hm2, hp2⟩⟩ := hs x hx
      obtain ⟨k1, hk1, hk1'⟩ := getElem?_append_of_mem e hm1
      obtain ⟨k2, hk2, hk2'⟩ := getElem?_append_of_mem e hm2
      exact ⟨⟨k1, hk1, e1, hk1', hp1⟩, ⟨k2, hk2, e2, hk2', hp2⟩⟩

/-- What `add_process` does to the views, given that the log is in order. -/
theorem add_process_facts (sz : Nat) (v : view) (pid : Int) (nm : char_array 32)
    (hl : v.cache_logged) (ho : log_ordered v.log) :
    (view.add_process sz v pid nm).cache_logged ∧
    log_ordered (view.add_process sz v pid nm).log ∧
    (view.add_process sz v pid nm).tids = v.tids ∧
    (view.add_process sz v pid nm).tpids = v.tpids ∧
    ((view.add_process sz v pid nm).exiting = false → v.exiting = false) ∧
    (view.add_process sz v pid nm).pids.length ≤ v.pids.length + 1 ∧
    ((pid ∈ v.pids ∨ v.pids.length < MAX_NUM_PROCESSES) →
      pid ∈ (view.add_process sz v pid nm).pids) := by
  unfold view.add_process
  split
  · rename_i hcond
    rcases view_post_cases sz { v with pids := v.pids ++ [pid] }
      ⟨ENTRY_KIND_PROCESS, .p ⟨pid, nm⟩⟩ with ⟨hex, h'⟩ | ⟨hex, -, h'⟩ | ⟨hex, -, h'⟩ <;>
      rw [h']
    · refine ⟨?_, ho, rfl, rfl, fun h => h, by simp, fun _ => by simp⟩
      intro hc
      exact absurd (hex.symm.trans hc) (by decide)
    · refine ⟨?_, ho, rfl, rfl, fun _ => hex, by simp, fun _ => by simp⟩
      intro hc
      exact absurd hc (by simp)
    · refine ⟨?_, ?_, rfl, rfl, fun _ => hex, by simp, fun _ => by simp⟩
      · intro _
        obtain ⟨h1, h2⟩ := hl hex
        constructor
        · intro tid htid
          obtain ⟨e, he, het⟩ := h1 tid htid
          exact ⟨e, List.mem_append_left _ he, het⟩
        · intro q hq
          rcases List.mem_append.mp hq with hq | hq
          · obtain ⟨e, he, het⟩ := h2 q hq
            exact ⟨e, List.mem_append_left _ he, het⟩
          · have : q = pid := by simpa using hq
            subst this
            exact ⟨_, List.mem_append_right _ (List.mem_singleton_self _), rfl⟩
      · apply log_ordered_append _ _ ho (wf_process pid nm)
        · intro t ht; exact absurd ht (by simp [entry.as_thread, ENTRY_KIND_PROCESS, ENTRY_KIND_THREAD])
        · intro x hx; exact absurd hx (by simp)
  · rename_i hcond
    refine ⟨hl, ho, rfl, rfl, fun h => h, Nat.le_succ _, ?_⟩
    intro h
    rcases h with h | h
    · exact h
    · by_contra hn
      exact hcond ⟨hn, h⟩

/-- What `add_thread` does to the views, given that the log is in order. -/
theorem add_thread_facts (sz : Nat) (v : view) (tid : Int) (name : char_array 16)
    (lk : lookup) (hn : v.counts) (hl : v.cache_logged) (ho : log_ordered v.log) :
    (view.add_thread sz v tid name lk).counts ∧
    (view.add_thread sz v tid name lk).cache_logged ∧
    log_ordered (view.add_thread sz v tid name lk).log ∧
    ((view.add_thread sz v tid name lk).exiting = false → v.exiting = false) ∧
    ((view.add_thread sz v tid name lk).tids = v.tids ∨
      (tid ∉ v.tids ∧ (view.add_thread sz v tid name lk).tids = v.tids ++ [tid])) ∧
    ((tid ∈ v.tids ∨ v.tids.length < MAX_NUM_THREADS) →
      tid ∈ (view.add_thread sz v tid name lk).tids) := by
  unfold view.add_thread
  split
  · rename_i hcond
    obtain ⟨al, ao, atids, -, aex, alen, apid⟩ :=
      add_process_facts sz v lk.tgid lk.pname hl ho
    have hproc : lk.tgid ∈ (view.add_process sz v lk.tgid lk.pname).pids := by
      apply apid
      right
      have := hn.1
      have := hcond.2
      simp only [MAX_NUM_PROCESSES, MAX_NUM_THREADS] at *
      omega
    simp only
    rcases view_post_cases sz
      { view.add_process sz v lk.tgid lk.pname with
        tids := (view.add_process sz v lk.tgid lk.pname).tids ++ [tid]
        tpids := (view.add_process sz v lk.tgid lk.pname).tpids ++ [lk.tgid] }
      ⟨ENTRY_KIND_THREAD, .t ⟨tid, lk.tgid, thread_name name⟩⟩ with
      ⟨hex, h'⟩ | ⟨hex, -, h'⟩ | ⟨hex, -, h'⟩ <;> rw [h']
    · refine ⟨?_, ?_, ao, ?_, Or.inr ⟨hcond.1, by simp [atids]⟩, fun _ => by simp⟩
      · constructor
        · simp only [List.length_append, List.length_singleton, atids]
          have := hn.1; omega
        · simp only [List.length_append, List.length_singleton, atids]
          have := hcond.2; omega
      · intro hc; exact absurd (hex.symm.trans hc) (by decide)
      · intro hc; exact absurd (hex.symm.trans hc) (by decide)
    · refine ⟨?_, ?_, ao, ?_, Or.inr ⟨hcond.1, by simp [atids]⟩, fun _ => by simp⟩
      · constructor
        · simp only [List.length_append, List.length_singleton, atids]
          have := hn.1; omega
        · simp only [List.length_append, List.length_singleton, atids]
          have := hcond.2; omega
      · intro hc; exact absurd hc (by simp)
      · intro hc; exact absurd hc (by simp)
    · have hex1 : (view.add_process sz v lk.tgid lk.pname).exiting = false := hex
      obtain ⟨l1, l2⟩ := al hex1
      refine ⟨?_, ?_, ?_, fun _ => aex hex1, Or.inr ⟨hcond.1, by simp [atids]⟩,
        fun _ => by simp⟩
      · constructor
        · simp only [List.length_append, List.length_singleton, atids]
          have := hn.1; omega
        · simp only [List.length_append, List.length_singleton, atids]
          have := hcond.2; omega
      · intro _
        constructor
        · intro q hq
          rcases List.mem_append.mp hq with hq | hq
          · obtain ⟨e, he, het⟩ := l1 q hq
            exact ⟨e, List.mem_append_left _ he, het⟩
          · have : q = tid := by simpa using hq
            subst this
            exact ⟨_, List.mem_append_right _ (List.mem_singleton_self _), rfl⟩
        · intro q hq
          obtain ⟨e, he, het⟩ := l2 q hq
          exact ⟨e, List.mem_append_left _ he, het⟩
      · apply log_ordered_append _ _ ao (wf_thread _ _ _)
        · intro t ht
          rw [as_thread_thread] at ht
          have : t.pid = lk.tgid := by rw [← Option.some.inj ht]
          rw [this]
          exact l2 lk.tgid hproc
        · intro x hx; exact absurd hx (by simp)
  · rename_i hcond
    refine ⟨hn, hl, ho, fun h => h, Or.inl rfl, ?_⟩
    intro h
    rcases h with h | h
    · exact h
    · by_contra hn'
      exact hcond ⟨hn', h⟩

theorem within_room (T : List Int) (v : view) (hT : T.dedup.length ≤ MAX_NUM_THREADS)
    (hw : v.within T) (tid : Int) (ht : tid ∈ T) :
    tid ∈ v.tids ∨ v.tids.length < MAX_NUM_THREADS := by
  by_cases h : tid ∈ v.tids
  · exact Or.inl h
  · right
    have hnd : (tid :: v.tids).Nodup := List.nodup_cons.mpr ⟨h, hw.1⟩
    have hsub : (tid :: v.tids) ⊆ T.dedup := by
      intro x hx
      rcases List.mem_cons.mp hx with hx | hx
      · subst hx; exact List.mem_dedup.mpr ht
      · exact List.mem_dedup.mpr (hw.2 x hx)
    have := (List.subperm_of_subset hnd hsub).length_le
    simp only [List.length_cons] at this
    omega

theorem good_add_thread (sz : Nat) (T : List Int) (v : view) (tid : Int)
    (name : char_array 16) (lk : lookup) (hT : T.dedup.length ≤ MAX_NUM_THREADS)
    (ht : tid ∈ T) (hg : v.good T) :
    (view.add_thread sz v tid name lk).good T ∧
    ((view.add_thread sz v tid name lk).exiting = false → v.exiting = false) ∧
    tid ∈ (view.add_thread sz v tid name lk).tids ∧
    (∀ q ∈ v.tids, q ∈ (view.add_thread sz v tid name lk).tids) := by
  obtain ⟨hw, hn, hl, ho⟩ := hg
  obtain ⟨fn, fl, fo, fex, ftids, fmem⟩ := add_thread_facts sz v tid name lk hn hl ho
  have hroom := within_room T v hT hw tid ht
  refine ⟨⟨?_, fn, fl, fo⟩, fex, fmem hroom, ?_⟩
  · rcases ftids with h | ⟨hnot, h⟩
    · rw [view.within, h]; exact hw
    · rw [view.within, h]
      constructor
      · rw [List.nodup_append]
        refine ⟨hw.1, List.nodup_singleton tid, ?_⟩
        intro x hx hx'
        have : x = tid := by simpa using hx'
        subst this
        exact hnot hx
      · intro q hq
        rcases List.mem_append.mp hq with hq | hq
        · exact hw.2 q hq
        · have : q = tid := by simpa using hq
          subst this; exact ht
  · intro q hq
    rcases ftids with h | ⟨-, h⟩
    · rw [h]; exact hq
    · rw [h]; exact List.mem_append_left _ hq

theorem good_post_switch (sz : Nat) (T : List Int) (v : view) (e : event) (hg : v.good T)
    (hold : e.old_pid ∈ v.tids) (hnew : e.new_pid ∈ v.tids) :
    (view.post sz v (sched_switch_entry e)).good T := by
  obtain ⟨hw, hn, hl, ho⟩ := hg
  rcases view_post_cases sz v (sched_switch_entry e) with
    ⟨hex, h'⟩ | ⟨hex, -, h'⟩ | ⟨hex, -, h'⟩ <;> rw [h']
  · exact ⟨hw, hn, hl, ho⟩
  · refine ⟨hw, hn, ?_, ho⟩
    intro hc; exact absurd hc (by simp)
  · obtain ⟨l1, l2⟩ := hl hex
    refine ⟨hw, hn, ?_, ?_⟩
    · intro _
      constructor
      · intro q hq
        obtain ⟨e', he, het⟩ := l1 q hq
        exact ⟨e', List.mem_append_left _ he, het⟩
      · intro q hq
        obtain ⟨e', he, het⟩ := l2 q hq
        exact ⟨e', List.mem_append_left _ he, het⟩
    · apply log_ordered_append _ _ ho (wf_switch e)
      · intro t ht; exact absurd ht (by simp)
      · intro x hx
        have hx' : x.old_tid = e.old_pid ∧ x.new_tid = e.new_pid := by
          have : (sched_switch_entry e).as_switch = some
              { old_tid := e.old_pid, old_pri := e.old_pri,
                old_name := memcpy (char_array.zeros 16) e.old_name 16 (by decide) (by decide),
                new_tid := e.new_pid, new_pri := e.new_pri,
                new_name := memcpy (char_array.zeros 16) e.comm 16 (by decide) (by decide),
                ns := e.ns } := rfl
          rw [this] at hx
          have := Option.some.inj hx
          subst this
          exact ⟨rfl, rfl⟩
        rw [hx'.1, hx'.2]
        exact ⟨l1 _ hold, l1 _ hnew⟩

theorem good_handle_event (sz : Nat) (T : List Int) (v : view) (c : call)
    (hT : T.dedup.length ≤ MAX_NUM_THREADS) (hin : ∀ tid ∈ call_tids c, tid ∈ T)
    (hg : v.good T) : (view.handle_event sz v c).good T := by
  unfold view.handle_event
  split
  · exact hg
  · rename_i e hd
    have hin' : e.old_pid ∈ T ∧ e.new_pid ∈ T := by
      simp only [call_tids, hd, List.mem_cons, List.mem_singleton, forall_eq_or_imp, forall_eq,
        List.not_mem_nil, false_imp_iff, implies_true, and_true] at hin
      exact hin
    split
    · split
      · obtain ⟨hw, hn, hl, ho⟩ := hg
        refine ⟨hw, hn, ?_, ho⟩
        intro hc; exact absurd hc (by simp)
      · obtain ⟨g1, -, m1, -⟩ :=
          good_add_thread sz T v e.old_pid e.old_name c.old_lookup hT hin'.1 hg
        obtain ⟨g2, -, m2, sub2⟩ :=
          good_add_thread sz T _ e.new_pid e.comm c.new_lookup hT hin'.2 g1
        exact good_post_switch sz T _ e g2 (sub2 _ m1) m2
    · exact hg

theorem good_foldl (sz : Nat) (T : List Int) (hT : T.dedup.length ≤ MAX_NUM_THREADS)
    (cs : List call) (hin : ∀ tid ∈ run_tids cs, tid ∈ T) (v : view) (hg : v.good T) :
    (cs.foldl (view.handle_event sz) v).good T := by
  induction cs generalizing v with
  | nil => exact hg
  | cons c cs ih =>
    simp only [run_tids, List.mem_append] at hin
    exact ih (fun tid h => hin tid (Or.inr h)) _
      (good_handle_event sz T v c hT (fun tid h => hin tid (Or.inl h)) hg)

theorem good_init (T : List Int) : state.init.view.good T := by
  rw [init_view]
  refine ⟨⟨List.nodup_nil, by simp⟩, ⟨by simp, by simp⟩, ?_, ?_⟩
  · intro _; simp
  · intro i e h; simp at h

theorem as_process_eq_some (e : entry) (x : process_payload) :
    e.as_process = some x ↔ e = ⟨ENTRY_KIND_PROCESS, .p x⟩ := by
  obtain ⟨k, p⟩ := e
  unfold entry.as_process
  constructor
  · intro h
    split at h
    · rename_i hk
      simp only at hk
      subst hk
      cases p <;> simp_all
    · exact absurd h (by simp)
  · intro h
    injection h with h1 h2
    subst h1; subst h2
    simp

theorem as_thread_eq_some (e : entry) (x : thread_payload) :
    e.as_thread = some x ↔ e = ⟨ENTRY_KIND_THREAD, .t x⟩ := by
  obtain ⟨k, p⟩ := e
  unfold entry.as_thread
  constructor
  · intro h
    split at h
    · rename_i hk
      simp only at hk
      subst hk
      cases p <;> simp_all
    · exact absurd h (by simp)
  · intro h
    injection h with h1 h2
    subst h1; subst h2
    simp

theorem as_switch_eq_some (e : entry) (x : sched_switch_payload) :
    e.as_switch = some x ↔ e = ⟨ENTRY_KIND_SCHED_SWITCH, .ss x⟩ := by
  obtain ⟨k, p⟩ := e
  unfold entry.as_switch
  constructor
  · intro h
    split at h
    · rename_i hk
      simp only at hk
      subst hk
      cases p <;> simp_all
    · exact absurd h (by simp)
  · intro h
    injection h with h1 h2
    subst h1; subst h2
    simp

theorem wf_kind_switch (e : entry) (hw : e.wf) (hk : e.kind = ENTRY_KIND_SCHED_SWITCH) :
    ∃ x, e.as_switch = some x := by
  rcases hw with h | h | h
  · obtain ⟨x, hx⟩ := Option.isSome_iff_exists.mp h
    rw [as_process_eq_some] at hx
    rw [hx] at hk
    exact absurd hk (by simp [ENTRY_KIND_PROCESS, ENTRY_KIND_THREAD, ENTRY_KIND_SCHED_SWITCH])
  · obtain ⟨x, hx⟩ := Option.isSome_iff_exists.mp h
    rw [as_thread_eq_some] at hx
    rw [hx] at hk
    exact absurd hk (by simp [ENTRY_KIND_PROCESS, ENTRY_KIND_THREAD, ENTRY_KIND_SCHED_SWITCH])
  · exact Option.isSome_iff_exists.mp h

/-- In an ordered log, the entries before a SchedSwitch entry introduce the thread
`tid` named by it and the process of that Thread entry. -/
theorem ordered_thread_before (s : state) (ho : log_ordered s.log) (i : Nat)
    (hi : i < s.num_entries) (tid : Int)
    (h : ∃ j, j < i ∧ ∃ e', s.log[j]? = some e' ∧ e'.thread_tid = some tid) :
    ∃ j, j < i ∧ ∃ t, s.entries j = ⟨ENTRY_KIND_THREAD, .t t⟩ ∧ t.tid = tid ∧
      ∃ k, k < j ∧ ∃ p, s.entries k = ⟨ENTRY_KIND_PROCESS, .p p⟩ ∧ p.pid = t.pid := by
  obtain ⟨j, hj, e', he', ht⟩ := h
  have hej : e' = s.entries j := by
    rw [log_getElem? s j (by omega)] at he'
    exact (Option.some.inj he').symm
  obtain ⟨t, ht, htid⟩ := Option.map_eq_some'.mp ht
  obtain ⟨-, hthr, -⟩ := ho j e' he'
  obtain ⟨k, hk, e'', he'', hp⟩ := hthr t ht
  have hek : e'' = s.entries k := by
    rw [log_getElem? s k (by omega)] at he''
    exact (Option.some.inj he'').symm
  obtain ⟨p, hp1, hp2⟩ := Option.map_eq_some'.mp hp
  refine ⟨j, hj, t, ?_, htid, k, hk, p, ?_, hp2⟩
  · rw [← hej]; exact (as_thread_eq_some e' t).mp ht
  · rw [← hek]; exact (as_process_eq_some e'' p).mp hp1

/-! ## What a run appends -/

theorem step_refl (sz : Nat) (v : view) : view.step sz v v [] :=
  ⟨by simp, fun h => h, Or.inl rfl⟩

theorem step_trans (sz : Nat) {v v1 v2 : view} {l1 l2 : List entry}
    (h1 : view.step sz v v1 l1) (h2 : view.step sz v1 v2 l2) :
    view.step sz v v2 (l1 ++ l2) := by
  obtain ⟨a1, b1, c1⟩ := h1
  obtain ⟨a2, b2, c2⟩ := h2
  refine ⟨by rw [a2, a1, List.append_assoc], fun h => b1 (b2 h), ?_⟩
  rcases c2 with c2 | ⟨c2, c2'⟩
  · rcases c1 with c1 | ⟨c1, c1'⟩
    · left; simp [c1, c2]
    · right
      refine ⟨c1, ?_⟩
      rw [a2, c2, List.append_nil]; exact c1'
  · exact Or.inr ⟨b1 c2, c2'⟩

/-- A change of the caches alone is a step that appends nothing. -/
theorem step_caches (sz : Nat) (v : view) (tids tpids pids : List Int) :
    view.step sz v { v with tids := tids, tpids := tpids, pids := pids } [] :=
  ⟨by simp, fun h => h, Or.inl rfl⟩

theorem step_post (sz : Nat) (v : view) (e : entry) :
    ∃ l, view.step sz v (view.post sz v e) l ∧ (l = [] ∨ l = [e]) ∧
      ((view.post sz v e).exiting = false → l = [e]) ∧
      (view.post sz v e).tids = v.tids ∧ (view.post sz v e).tpids = v.tpids ∧
      (view.post sz v e).pids = v.pids := by
  rcases view_post_cases sz v e with ⟨hex, h'⟩ | ⟨hex, hb, h'⟩ | ⟨hex, hb, h'⟩ <;> rw [h']
  · exact ⟨[], step_refl sz v, Or.inl rfl, fun h => absurd (hex.symm.trans h) (by decide),
      rfl, rfl, rfl⟩
  · exact ⟨[], ⟨by simp, fun h => absurd h (by simp), Or.inl rfl⟩, Or.inl rfl,
      fun h => absurd h (by simp), rfl, rfl, rfl⟩
  · refine ⟨[e], ⟨rfl, fun _ => hex, Or.inr ⟨hex, ?_⟩⟩, Or.inr rfl, fun _ => rfl, rfl, rfl, rfl⟩
    simpa using hb

theorem step_add_process (sz : Nat) (v : view) (pid : Int) (nm : char_array 32) :
    ∃ l, view.step sz v (view.add_process sz v pid nm) l ∧
      ∀ x ∈ l, x.wf ∧ x.is_identity = true := by
  unfold view.add_process
  split
  · obtain ⟨l, hs, hl, -⟩ := step_post sz { v with pids := v.pids ++ [pid] }
      ⟨ENTRY_KIND_PROCESS, .p ⟨pid, nm⟩⟩
    refine ⟨[] ++ l, step_trans sz (step_caches sz v v.tids v.tpids (v.pids ++ [pid])) hs, ?_⟩
    intro x hx
    rcases hl with hl | hl
    · rw [hl] at hx; simp at hx
    · rw [hl] at hx
      have : x = ⟨ENTRY_KIND_PROCESS, .p ⟨pid, nm⟩⟩ := by simpa using hx
      subst this
      exact ⟨wf_process pid nm, rfl⟩
  · exact ⟨[], step_refl sz v, by simp⟩

theorem step_add_thread (sz : Nat) (v : view) (tid : Int) (name : char_array 16)
    (lk : lookup) :
    ∃ l, view.step sz v (view.add_thread sz v tid name lk) l ∧
      ∀ x ∈ l, x.wf ∧ x.is_identity = true := by
  unfold view.add_thread
  split
  · obtain ⟨l1, hs1, hl1⟩ := step_add_process sz v lk.tgid lk.pname
    simp only
    obtain ⟨l2, hs2, hl2, -⟩ := step_post sz
      { view.add_process sz v lk.tgid lk.pname with
        tids := (view.add_process sz v lk.tgid lk.pname).tids ++ [tid]
        tpids := (view.add_process sz v lk.tgid lk.pname).tpids ++ [lk.tgid] }
      ⟨ENTRY_KIND_THREAD, .t ⟨tid, lk.tgid, thread_name name⟩⟩
    refine ⟨l1 ++ ([] ++ l2),
      step_trans sz hs1 (step_trans sz (step_caches sz _ _ _ _) hs2), ?_⟩
    intro x hx
    rcases List.mem_append.mp hx with hx | hx
    · exact hl1 x hx
    · rcases hl2 with hl2 | hl2
      · rw [hl2] at hx; simp at hx
      · rw [hl2] at hx
        have : x = ⟨ENTRY_KIND_THREAD, .t ⟨tid, lk.tgid, thread_name name⟩⟩ := by
          simpa using hx
        subst this
        exact ⟨wf_thread _ _ _, rfl⟩
  · exact ⟨[], step_refl sz v, by simp⟩

/-- What `handle_event` appends: identity entries, then the SchedSwitch entry
of the event if the call ends with the exit flag clear. -/
theorem step_handle_event (sz : Nat) (v : view) (c : call) :
    ∃ l, view.step sz v (view.handle_event sz v c) l ∧ (∀ x ∈ l, x.wf) ∧
      (∀ e, c.data = some e → c.data_sz = sizeof_event →
        (view.handle_event sz v c).exiting = false →
        ∃ ids, l = ids ++ [sched_switch_entry e] ∧ ∀ x ∈ ids, x.is_identity = true) := by
  unfold view.handle_event
  split
  · rename_i hd
    exact ⟨[], step_refl sz v, by simp, fun e he => by rw [hd] at he; exact absurd he (by simp)⟩
  · rename_i e hd
    split
    · rename_i hcond
      split
      · refine ⟨[], ⟨by simp, fun h => absurd h (by simp), Or.inl rfl⟩, by simp, ?_⟩
        intro _ _ _ h
        exact absurd h (by simp)
      · obtain ⟨l1, hs1, hl1⟩ := step_add_thread sz v e.old_pid e.old_name c.old_lookup
        obtain ⟨l2, hs2, hl2⟩ := step_add_thread sz
          (view.add_thread sz v e.old_pid e.old_name c.old_lookup) e.new_pid e.comm c.new_lookup
        obtain ⟨l3, hs3, hl3, hl3', -⟩ := step_post sz
          (view.add_thread sz (view.add_thread sz v e.old_pid e.old_name c.old_lookup)
            e.new_pid e.comm c.new_lookup) (sched_switch_entry e)
        refine ⟨(l1 ++ l2) ++ l3, step_trans sz (step_trans sz hs1 hs2) hs3, ?_, ?_⟩
        · intro x hx
          rcases List.mem_append.mp hx with hx | hx
          · rcases List.mem_append.mp hx with hx | hx
            · exact (hl1 x hx).1
            · exact (hl2 x hx).1
          · rcases hl3 with hl3 | hl3
            · rw [hl3] at hx; simp at hx
            · rw [hl3] at hx
              have : x = sched_switch_entry e := by simpa using hx
              subst this
              exact wf_switch e
        · intro e' he' _ hex
          rw [hd] at he'
          have : e = e' := Option.some.inj he'
          subst this
          refine ⟨l1 ++ l2, by rw [hl3' hex], ?_⟩
          intro x hx
          rcases List.mem_append.mp hx with hx | hx
          · exact (hl1 x hx).2
          · exact (hl2 x hx).2
    · rename_i hcond
      refine ⟨[], step_refl sz v, by simp, ?_⟩
      intro e' he' hsz hex
      exact absurd ⟨hex, hsz⟩ hcond

theorem step_foldl (sz : Nat) (cs : List call) (v : view) :
    ∃ l, view.step sz v (cs.foldl (view.handle_event sz) v) l ∧ ∀ x ∈ l, x.wf := by
  induction cs generalizing v with
  | nil => exact ⟨[], step_refl sz v, by simp⟩
  | cons c cs ih =>
    obtain ⟨l1, hs1, hl1, -⟩ := step_handle_event sz v c
    obtain ⟨l2, hs2, hl2⟩ := ih (view.handle_event sz v c)
    refine ⟨l1 ++ l2, step_trans sz hs1 hs2, ?_⟩
    intro x hx
    rcases List.mem_append.mp hx with hx | hx
    · exact hl1 x hx
    · exact hl2 x hx

theorem char_array_ext {n : Nat} (a b : char_array n) (h : a.bytes = b.bytes) : a = b := by
  cases a; cases b; simp_all

theorem memcpy_full (dst src : char_array 16) (h : 16 ≤ 16) (hk : 16 ≤ 16) :
    memcpy dst src 16 h hk = src := by
  apply char_array_ext
  simp only [memcpy]
  rw [List.take_of_length_le (by rw [src.len]), List.drop_of_length_le (by rw [dst.len])]
  simp

theorem as_switch_sched_switch_entry (e : event) :
    (sched_switch_entry e).as_switch = some e.payload := by
  rw [as_switch_eq_some]
  simp only [sched_switch_entry, event.payload, memcpy_full]

theorem identity_not_switch (x : entry) (h : x.is_identity = true) : x.as_switch = none := by
  simp only [entry.is_identity, Bool.or_eq_true] at h
  rcases h with h | h
  · obtain ⟨p, hp⟩ := Option.isSome_iff_exists.mp h
    rw [(as_process_eq_some x p).mp hp]; rfl
  · obtain ⟨p, hp⟩ := Option.isSome_iff_exists.mp h
    rw [(as_thread_eq_some x p).mp hp]; rfl

theorem switch_not_identity (e : event) : (sched_switch_entry e).is_identity = false := rfl

theorem filterMap_switch_identities (ids : List entry) (h : ∀ x ∈ ids, x.is_identity = true) :
    ids.filterMap entry.as_switch = [] := by
  induction ids with
  | nil => rfl
  | cons a ids ih =>
    rw [List.filterMap_cons, identity_not_switch a (h a (List.mem_cons_self _ _))]
    exact ih (fun x hx => h x (List.mem_cons_of_mem _ hx))

theorem filter_identities (ids : List entry) (h : ∀ x ∈ ids, x.is_identity = true) :
    ids.filter entry.is_identity = ids :=
  List.filter_eq_self.mpr h

/-- The entries a run appends when every call delivers an event of the expected
size and the exit flag is clear at the end. -/
theorem foldl_switches (sz : Nat) (cs : List call) (v : view)
    (hcs : ∀ c ∈ cs, ∃ e, c.data = some e ∧ c.data_sz = sizeof_event)
    (hex : (cs.foldl (view.handle_event sz) v).exiting = false) :
    ∃ l, (cs.foldl (view.handle_event sz) v).log = v.log ++ l ∧
      l.filterMap entry.as_switch = (cs.filterMap (fun c => c.data)).map event.payload ∧
      (∀ x ∈ l, x.wf) ∧
      l.length = cs.length + (l.filter entry.is_identity).length := by
  induction cs generalizing v with
  | nil => exact ⟨[], by simp, rfl, by simp, rfl⟩
  | cons c cs ih =>
    simp only [List.foldl_cons] at hex ⊢
    obtain ⟨l2, h2, f2, w2, n2⟩ := ih (view.handle_event sz v c)
      (fun c' hc' => hcs c' (List.mem_cons_of_mem _ hc')) hex
    obtain ⟨lf, hsf, -⟩ := step_foldl sz cs (view.handle_event sz v c)
    have hex1 : (view.handle_event sz v c).exiting = false := hsf.2.1 hex
    obtain ⟨e, hd, hsize⟩ := hcs c (List.mem_cons_self _ _)
    obtain ⟨l1, hs1, w1, hl1⟩ := step_handle_event sz v c
    obtain ⟨ids, hids, hid⟩ := hl1 e hd hsize hex1
    refine ⟨l1 ++ l2, by rw [h2, hs1.1, List.append_assoc], ?_, ?_, ?_⟩
    · rw [List.filterMap_append, f2, hids, List.filterMap_append,
        filterMap_switch_identities ids hid]
      simp [hd, as_switch_sched_switch_entry]
    · intro x hx
      rcases List.mem_append.mp hx with hx | hx
      · exact w1 x hx
      · exact w2 x hx
    · rw [List.filter_append, hids, List.filter_append, filter_identities ids hid]
      simp only [List.length_append, List.length_cons, List.length_nil, List.filter_cons,
        switch_not_identity, List.filter_nil]
      simp only [Bool.false_eq_true, if_false, List.length_nil]
      omega

/-- Entries appended to the visible log are the new slots of the region. -/
theorem entries_of_log_append (s s' : state) (l : List entry) (h : s'.log = s.log ++ l) :
    s'.num_entries = s.num_entries + l.length ∧
    (∀ i, i < s.num_entries → s'.entries i = s.entries i) ∧
    (∀ i x, l[i]? = some x → s'.entries (s.num_entries + i) = x) := by
  have hlen : s'.num_entries = s.num_entries + l.length := by
    have := congrArg List.length h
    rw [log_length, List.length_append, log_length] at this
    exact this
  refine ⟨hlen, ?_, ?_⟩
  · intro i hi
    have h1 := log_getElem? s' i (by omega)
    rw [h, List.getElem?_append_left (by rw [log_length]; exact hi), log_getElem? s i hi] at h1
    exact (Option.some.inj h1).symm
  · intro i x hx
    obtain ⟨hlt, -⟩ := List.getElem?_eq_some.mp hx
    have h1 := log_getElem? s' (s.num_entries + i) (by omega)
    rw [h, List.getElem?_append_right (by rw [log_length]; omega), log_length,
      Nat.add_sub_cancel_left, hx] at h1
    exact (Option.some.inj h1).symm

/-! ## Sizes of the caches -/

theorem mem_tpids_iff (s : state) (pid : Int) :
    pid ∈ s.tpids ↔ ∃ i, i < s.num_threads ∧ s.thread_pids i = pid := by
  simp [state.tpids]

theorem balanced_iff_owned (s : state) : s.balanced ↔ s.view.owned := by
  unfold state.balanced view.owned view.counts
  simp only [state.view, pids_length, tids_length]
  constructor
  · rintro ⟨h1, h2, h3⟩
    refine ⟨⟨h1, h2⟩, ?_⟩
    intro p hp
    obtain ⟨i, hi, hpi⟩ := (mem_tpids_iff s p).mp hp
    obtain ⟨j, hj, hpj⟩ := h3 i hi
    exact (mem_pids_iff s p).mpr ⟨j, hj, by rw [hpj, hpi]⟩
  · rintro ⟨⟨h1, h2⟩, h3⟩
    refine ⟨h1, h2, ?_⟩
    intro i hi
    exact (mem_pids_iff s _).mp (h3 _ ((mem_tpids_iff s _).mpr ⟨i, hi, rfl⟩))

/-- What `add_process` does to the caches. -/
theorem add_process_caches (sz : Nat) (v : view) (pid : Int) (nm : char_array 32) :
    (view.add_process sz v pid nm).tids = v.tids ∧
    (view.add_process sz v pid nm).tpids = v.tpids ∧
    (∀ q ∈ v.pids, q ∈ (view.add_process sz v pid nm).pids) ∧
    (view.add_process sz v pid nm).pids.length ≤ v.pids.length + 1 ∧
    (v.pids.length < MAX_NUM_PROCESSES → pid ∈ (view.add_process sz v pid nm).pids) := by
  unfold view.add_process
  split
  · obtain ⟨-, -, -, -, h1, h2, h3⟩ := step_post sz { v with pids := v.pids ++ [pid] }
      ⟨ENTRY_KIND_PROCESS, .p ⟨pid, nm⟩⟩
    rw [h1, h2, h3]
    exact ⟨rfl, rfl, fun q hq => List.mem_append_left _ hq, by simp, fun _ => by simp⟩
  · rename_i hcond
    refine ⟨rfl, rfl, fun q hq => hq, Nat.le_succ _, ?_⟩
    intro hlt
    by_contra hn
    exact hcond ⟨hn, hlt⟩

theorem owned_post (sz : Nat) (v : view) (e : entry) (h : v.owned) :
    (view.post sz v e).owned := by
  obtain ⟨-, -, -, -, h1, h2, h3⟩ := step_post sz v e
  unfold view.owned view.counts
  rw [h1, h2, h3]
  exact h

theorem owned_add_thread (sz : Nat) (v : view) (tid : Int) (name : char_array 16)
    (lk : lookup) (h : v.owned) : (view.add_thread sz v tid name lk).owned := by
  unfold view.add_thread
  split
  · rename_i hcond
    obtain ⟨⟨hn1, hn2⟩, hsub⟩ := h
    obtain ⟨a1, a2, a3, a4, a5⟩ := add_process_caches sz v lk.tgid lk.pname
    have hroom : v.pids.length < MAX_NUM_PROCESSES := by
      have := hcond.2
      simp only [MAX_NUM_PROCESSES, MAX_NUM_THREADS] at *
      omega
    simp only
    apply owned_post
    refine ⟨⟨?_, ?_⟩, ?_⟩
    · simp only [List.length_append, List.length_singleton, a1]
      omega
    · simp only [List.length_append, List.length_singleton, a1]
      have := hcond.2
      omega
    · intro p hp
      simp only [a2] at hp
      rcases List.mem_append.mp hp with hp | hp
      · exact a3 p (hsub p hp)
      · have : p = lk.tgid := by simpa using hp
        subst this
        exact a5 hroom
  · exact h

theorem owned_handle_event (sz : Nat) (v : view) (c : call) (h : v.owned) :
    (view.handle_event sz v c).owned := by
  unfold view.handle_event
  split
  · exact h
  · split
    · split
      · exact h
      · exact owned_post sz _ _ (owned_add_thread sz _ _ _ _ (owned_add_thread sz _ _ _ _ h))
    · exact h

theorem owned_foldl (sz : Nat) (cs : List call) (v : view) (h : v.owned) :
    (cs.foldl (view.handle_event sz) v).owned := by
  induction cs generalizing v with
  | nil => exact h
  | cons c cs ih => exact ih _ (owned_handle_event sz v c h)

theorem owned_init : state.init.view.owned := by
  rw [init_view]
  exact ⟨⟨by simp, by simp⟩, by simp⟩

/-- With room in the process cache, `add_process` stores a pid that is not yet
cached in the next free slot. -/
theorem add_process_stores (sz : Nat) (s : state) (pid : Int) (nm : char_array 32)
    (hp : process_index s pid < 0) (hroom : s.num_processes < MAX_NUM_PROCESSES) :
    (add_process sz s pid nm).num_processes = s.num_processes + 1 ∧
    (add_process sz s pid nm).process_pids s.num_processes = pid := by
  unfold add_process
  rw [if_pos ⟨hp, hroom⟩]
  simp only [post_entry]
  split
  · split <;> simp
  · simp

/-! ## The claims -/

/-- C1. Visibility order (P3): from the initial state, after any sequence of
`handle_event` calls with arbitrary lookup results in which at most 4096
distinct thread ids occur, every visible entry of kind SchedSwitch is a
SchedSwitch payload and is preceded by a Thread entry for its `old_tid` and one
for its `new_tid`, each of which is preceded by a Process entry for its pid. -/
theorem visibility_order (sz : Nat) (hsz : sz < 2 ^ 64) (cs : List call)
    (hT : (run_tids cs).dedup.length ≤ MAX_NUM_THREADS) (i : Nat)
    (hi : i < (run sz state.init cs).num_entries)
    (hk : ((run sz state.init cs).entries i).kind = ENTRY_KIND_SCHED_SWITCH) :
    ∃ x, ((run sz state.init cs).entries i).payload = .ss x ∧
      (∃ j, j < i ∧ ∃ t, (run sz state.init cs).entries j = ⟨ENTRY_KIND_THREAD, .t t⟩ ∧
        t.tid = x.old_tid ∧
        ∃ k, k < j ∧ ∃ p, (run sz state.init cs).entries k = ⟨ENTRY_KIND_PROCESS, .p p⟩ ∧
          p.pid = t.pid) ∧
      (∃ j, j < i ∧ ∃ t, (run sz state.init cs).entries j = ⟨ENTRY_KIND_THREAD, .t t⟩ ∧
        t.tid = x.new_tid ∧
        ∃ k, k < j ∧ ∃ p, (run sz state.init cs).entries k = ⟨ENTRY_KIND_PROCESS, .p p⟩ ∧
          p.pid = t.pid) := by
  obtain ⟨-, hv⟩ := run_view sz hsz cs state.init init_coherent
  have hg := good_foldl sz (run_tids cs) hT cs (fun _ h => h) state.init.view
    (good_init _)
  rw [← hv] at hg
  have ho : log_ordered (run sz state.init cs).log := hg.2.2.2
  obtain ⟨hw, -, hsw⟩ := ho i _ (log_getElem? _ i hi)
  obtain ⟨x, hx⟩ := wf_kind_switch _ hw hk
  obtain ⟨hold, hnew⟩ := hsw x hx
  refine ⟨x, ?_, ordered_thread_before _ ho i hi _ hold, ordered_thread_before _ ho i hi _ hnew⟩
  rw [(as_switch_eq_some _ x).mp hx]

theorem visibility_order_witness :
    ∃ x, ((run SHARED_MEM_SIZE state.init [sample_call]).entries 4).payload = .ss x ∧
      (∃ j, j < 4 ∧ ∃ t,
        (run SHARED_MEM_SIZE state.init [sample_call]).entries j = ⟨ENTRY_KIND_THREAD, .t t⟩ ∧
        t.tid = x.old_tid ∧
        ∃ k, k < j ∧ ∃ p,
          (run SHARED_MEM_SIZE state.init [sample_call]).entries k =
            ⟨ENTRY_KIND_PROCESS, .p p⟩ ∧ p.pid = t.pid) ∧
      (∃ j, j < 4 ∧ ∃ t,
        (run SHARED_MEM_SIZE state.init [sample_call]).entries j = ⟨ENTRY_KIND_THREAD, .t t⟩ ∧
        t.tid = x.new_tid ∧
        ∃ k, k < j ∧ ∃ p,
          (run SHARED_MEM_SIZE state.init [sample_call]).entries k =
            ⟨ENTRY_KIND_PROCESS, .p p⟩ ∧ p.pid = t.pid) :=
  visibility_order SHARED_MEM_SIZE (by decide) [sample_call] (by decide) 4 (by decide)
    (by decide)

/-- C2. Identity uniqueness (P4): from the initial state, after any sequence of
`handle_event` calls (any events, any lookup results, any region size below
2^64 bytes), the visible log holds at most one Process entry with a given pid
and at most one Thread entry with a given tid. -/
theorem identity_uniqueness (sz : Nat) (hsz : sz < 2 ^ 64) (cs : List call) (id : Int) :
    count_process (run sz state.init cs).log id ≤ 1 ∧
    count_thread (run sz state.init cs).log id ≤ 1 := by
  obtain ⟨-, hv⟩ := run_view sz hsz cs state.init init_coherent
  have hu := uniq_foldl sz cs state.init.view uniq_init
  rw [← hv] at hu
  exact ⟨hu.1 id, hu.2.2.1 id⟩

theorem identity_uniqueness_witness :
    count_process (run SHARED_MEM_SIZE state.init [sample_call, sample_call]).log 50 ≤ 1 ∧
    count_thread (run SHARED_MEM_SIZE state.init [sample_call, sample_call]).log 50 ≤ 1 :=
  identity_uniqueness SHARED_MEM_SIZE (by decide) [sample_call, sample_call] 50

/-- C4. Monotone, append-only log (P2): for every state (with `eventcount`
mirroring `num_entries`) and every `handle_event` call, `num_entries` does not
decrease and every entry below the old `num_entries` is unchanged; and once the
exit flag is set, `handle_event` and `post_entry` leave the whole state as it is. -/
theorem append_only (sz : Nat) (s : state) (c : call) :
    (sz < 2 ^ 64 → s.coherent →
      s.num_entries ≤ (handle_event sz s c).num_entries ∧
      ∀ i, i < s.num_entries → (handle_event sz s c).entries i = s.entries i) ∧
    (s.exiting = true → handle_event sz s c = s ∧ ∀ e, post_entry sz s e = s) := by
  constructor
  · intro hsz hc
    obtain ⟨-, hv⟩ := handle_event_view sz hsz s c hc
    obtain ⟨l, ⟨h1, -, -⟩, -⟩ := step_handle_event sz s.view c
    rw [← hv] at h1
    obtain ⟨hn, hlow, -⟩ := entries_of_log_append s (handle_event sz s c) l h1
    exact ⟨by omega, hlow⟩
  · intro hex
    refine ⟨?_, fun e => post_entry_of_exiting sz s e hex⟩
    unfold handle_event
    split
    · rfl
    · simp [hex]

theorem append_only_witness :
    (state.init.num_entries ≤ (handle_event SHARED_MEM_SIZE state.init sample_call).num_entries ∧
      ∀ i, i < state.init.num_entries →
        (handle_event SHARED_MEM_SIZE state.init sample_call).entries i = state.init.entries i) ∧
    (handle_event SHARED_MEM_SIZE (sig_handler state.init) sample_call = sig_handler state.init ∧
      ∀ e, post_entry SHARED_MEM_SIZE (sig_handler state.init) e = sig_handler state.init) :=
  ⟨(append_only SHARED_MEM_SIZE state.init sample_call).1 (by decide) init_coherent,
    (append_only SHARED_MEM_SIZE (sig_handler state.init) sample_call).2 rfl⟩

/-- C5. Every delivered switch is recorded faithfully: from the initial state,
after `k` calls that each deliver a raw event of the expected size, with the
exit flag still clear at the end, the SchedSwitch entries of the log are, in
event order, exactly the `k` events field by field (`old_tid`, `old_pri`,
`old_name`, `new_tid`, `new_pri`, `new_name`, `ns`); every entry of the log is a
SchedSwitch, Process or Thread entry; and `num_entries` is `k` plus the number
of identity entries. -/
theorem switches_recorded (sz : Nat) (hsz : sz < 2 ^ 64) (cs : List call)
    (hcs : ∀ c ∈ cs, ∃ e, c.data = some e ∧ c.data_sz = sizeof_event)
    (hex : (run sz state.init cs).exiting = false) :
    (run sz state.init cs).log.filterMap entry.as_switch =
      (cs.filterMap (fun c => c.data)).map event.payload ∧
    ((cs.filterMap (fun c => c.data)).map event.payload).length = cs.length ∧
    (∀ x ∈ (run sz state.init cs).log,
      x.as_switch.isSome ∨ x.as_process.isSome ∨ x.as_thread.isSome) ∧
    (run sz state.init cs).num_entries =
      cs.length + ((run sz state.init cs).log.filter entry.is_identity).length := by
  obtain ⟨-, hv⟩ := run_view sz hsz cs state.init init_coherent
  have hex' : (cs.foldl (view.handle_event sz) state.init.view).exiting = false := by
    rw [← hv]; exact hex
  obtain ⟨l, h1, h2, h3, h4⟩ := foldl_switches sz cs state.init.view hcs hex'
  rw [← hv] at h1
  have hlog : (run sz state.init cs).log = l := by
    have : (run sz state.init cs).view.log = (run sz state.init cs).log := rfl
    rw [← this, h1]; simp [init_view]
  refine ⟨by rw [hlog, h2], ?_, ?_, ?_⟩
  · rw [List.length_map]
    clear hex hex' h1 h2 h3 h4 hlog hv
    induction cs with
    | nil => rfl
    | cons c cs ih =>
      obtain ⟨e, hd, -⟩ := hcs c (List.mem_cons_self _ _)
      rw [List.filterMap_cons]
      simp only [hd, List.length_cons]
      rw [ih (fun c' hc' => hcs c' (List.mem_cons_of_mem _ hc'))]
  · intro x hx
    rw [hlog] at hx
    rcases h3 x hx with h | h | h
    · exact Or.inr (Or.inl h)
    · exact Or.inr (Or.inr h)
    · exact Or.inl h
  · rw [← log_length, hlog]; exact h4

theorem switches_recorded_witness :
    (run SHARED_MEM_SIZE state.init [sample_call, sample_call]).log.filterMap entry.as_switch =
      ([sample_call, sample_call].filterMap (fun c => c.data)).map event.payload ∧
    (([sample_call, sample_call].filterMap (fun c => c.data)).map event.payload).length =
      [sample_call, sample_call].length ∧
    (∀ x ∈ (run SHARED_MEM_SIZE state.init [sample_call, sample_call]).log,
      x.as_switch.isSome ∨ x.as_process.isSome ∨ x.as_thread.isSome) ∧
    (run SHARED_MEM_SIZE state.init [sample_call, sample_call]).num_entries =
      [sample_call, sample_call].length +
        ((run SHARED_MEM_SIZE state.init [sample_call, sample_call]).log.filter
          entry.is_identity).length :=
  switches_recorded SHARED_MEM_SIZE (by decide) [sample_call, sample_call] (by decide)
    (by decide)

/-- The name `add_thread` writes is the first byte of the comm followed by 31
zero bytes, whatever the rest of the comm is. -/
theorem thread_name_bytes (comm : char_array 16) :
    (thread_name comm).bytes = comm.bytes.headD 0 :: List.replicate 31 0 := by
  obtain ⟨bytes, len⟩ := comm
  cases bytes with
  | nil => simp at len
  | cons c cs =>
    by_cases hc : c = 0
    · subst hc
      simp [thread_name, strncpy, strncpy_bytes, memset, char_array.zeros, c_char]
    · simp [thread_name, strncpy, strncpy_bytes, memset, char_array.zeros, c_char, hc]

/-- C6 (the code at the failing input). For thread 100 with comm "ab", not yet
cached, `add_thread` on the initial state appends at slot 1 a Thread entry with
tid 100 and the looked-up pid 50 whose name is "a" followed by 31 zero bytes:
the second byte of the comm is not in the entry, so the name is not the comm
padded with zero bytes. -/
theorem add_thread_name_first_byte_only :
    (add_thread SHARED_MEM_SIZE state.init 100 (comm_of [97, 98])
        ⟨50, char_array.zeros 32⟩).num_entries = 2 ∧
    ((add_thread SHARED_MEM_SIZE state.init 100 (comm_of [97, 98])
        ⟨50, char_array.zeros 32⟩).entries 1).as_thread.map
      (fun t => (t.tid, t.pid, t.name.bytes)) =
      some (100, 50, 97 :: List.replicate 31 0) ∧
    (comm_of [97, 98]).bytes = 97 :: 98 :: List.replicate 14 0 ∧
    (thread_name (comm_of [97, 98])).bytes ≠ (comm_of [97, 98]).bytes ++ List.replicate 16 0 := by
  decide

/-- C7 (as stated, refuted). On the initial state, the sample call, whose lookup
for the unseen new thread 200 fails with -1, appends a Process entry with pid -1
at slot 2, in front of the Thread entry of thread 200 at slot 3. -/
theorem died_process_counterexample :
    sample_call.new_lookup.tgid = -1 ∧
    thread_index state.init 200 < 0 ∧
    2 < (run SHARED_MEM_SIZE state.init [sample_call]).num_entries ∧
    (run SHARED_MEM_SIZE state.init [sample_call]).entries 2 =
      ⟨ENTRY_KIND_PROCESS, .p ⟨-1, char_array.zeros 32⟩⟩ ∧
    (run SHARED_MEM_SIZE state.init [sample_call]).entries 3 =
      ⟨ENTRY_KIND_THREAD, .t ⟨200, -1, thread_name (comm_of [99, 100, 101])⟩⟩ := by
  decide

/-- C7 (amended). For a thread id not yet cached whose owning-process lookup
fails (-1), with the thread cache not full, the exit flag clear and room for two
entries: `add_thread` appends the Thread entry with `pid == -1`; when -1 is not
yet in the process cache (and that cache is not full) it first appends a Process
entry with pid -1 carrying the name the process-name lookup left, otherwise the
Thread entry is the only entry appended. Over any run from the initial state the
log holds at most one Process entry with pid -1. -/
theorem died_process (sz : Nat) (hsz : sz < 2 ^ 64) (s : state) (tid : Int)
    (name : char_array 16) (lk : lookup) (hc : s.coherent) (hex : s.exiting = false)
    (hlk : lk.tgid = -1) (hnew : thread_index s tid < 0)
    (hcap : s.num_threads < MAX_NUM_THREADS)
    (hroom : entry_start_offset + sizeof_entry * (s.num_entries + 2) ≤ sz) :
    ((process_index s (-1) < 0 ∧ s.num_processes < MAX_NUM_PROCESSES) →
      (add_thread sz s tid name lk).num_entries = s.num_entries + 2 ∧
      (add_thread sz s tid name lk).entries s.num_entries =
        ⟨ENTRY_KIND_PROCESS, .p ⟨-1, lk.pname⟩⟩ ∧
      (add_thread sz s tid name lk).entries (s.num_entries + 1) =
        ⟨ENTRY_KIND_THREAD, .t ⟨tid, -1, thread_name name⟩⟩) ∧
    (¬ (process_index s (-1) < 0 ∧ s.num_processes < MAX_NUM_PROCESSES) →
      (add_thread sz s tid name lk).num_entries = s.num_entries + 1 ∧
      (add_thread sz s tid name lk).entries s.num_entries =
        ⟨ENTRY_KIND_THREAD, .t ⟨tid, -1, thread_name name⟩⟩) ∧
    (∀ cs : List call, count_process (run sz state.init cs).log (-1) ≤ 1) := by
  obtain ⟨-, hv⟩ := add_thread_view sz hsz s tid name lk hc
  have hlog := congrArg view.log hv
  have htid : tid ∉ s.tids := (thread_index_neg_iff s tid).mp hnew
  rw [sizeof_entry_eq, entry_start_offset_eq] at hroom
  have hb1 : beyond_region sz (s.num_entries + 1) = false := by
    rw [beyond_region_false_iff]; omega
  have hb2 : beyond_region sz (s.num_entries + 1 + 1) = false := by
    rw [beyond_region_false_iff]; omega
  refine ⟨?_, ?_, ?_⟩
  · rintro ⟨hp, hpcap⟩
    have hpid : (-1 : Int) ∉ s.pids := (process_index_neg_iff s (-1)).mp hp
    have : (add_thread sz s tid name lk).log = s.log ++
        [⟨ENTRY_KIND_PROCESS, .p ⟨-1, lk.pname⟩⟩,
         ⟨ENTRY_KIND_THREAD, .t ⟨tid, -1, thread_name name⟩⟩] := by
      have hlog' : (add_thread sz s tid name lk).log =
          (view.add_thread sz s.view tid name lk).log := hlog
      rw [hlog']
      simp [view.add_thread, view.add_process, view.post, state.view, htid, hpid, tids_length,
        pids_length, log_length, hcap, hpcap, hex, hlk, hb1, hb2]
    obtain ⟨h1, -, h3⟩ := entries_of_log_append s _ _ this
    exact ⟨h1, h3 0 _ rfl, h3 1 _ rfl⟩
  · intro hnp
    have hnp' : ¬ ((-1 : Int) ∉ s.pids ∧ s.pids.length < MAX_NUM_PROCESSES) := by
      rw [← process_index_neg_iff, pids_length]; exact hnp
    have : (add_thread sz s tid name lk).log = s.log ++
        [⟨ENTRY_KIND_THREAD, .t ⟨tid, -1, thread_name name⟩⟩] := by
      have hlog' : (add_thread sz s tid name lk).log =
          (view.add_thread sz s.view tid name lk).log := hlog
      rw [hlog']
      have hap : view.add_process sz s.view (-1) lk.pname = s.view := by
        unfold view.add_process
        exact if_neg hnp'
      have hcond : tid ∉ s.view.tids ∧ s.view.tids.length < MAX_NUM_THREADS :=
        ⟨htid, by rw [show s.view.tids = s.tids from rfl, tids_length]; exact hcap⟩
      unfold view.add_thread
      rw [if_pos hcond]
      simp only [hlk, hap]
      simp [view.post, state.view, hex, log_length, hb1]
    obtain ⟨h1, -, h3⟩ := entries_of_log_append s _ _ this
    exact ⟨h1, h3 0 _ rfl⟩
  · intro cs
    obtain ⟨-, hv'⟩ := run_view sz hsz cs state.init init_coherent
    have hu := uniq_foldl sz cs state.init.view uniq_init
    rw [← hv'] at hu
    exact hu.1 (-1)

theorem died_process_witness :
    ((process_index state.init (-1) < 0 ∧ state.init.num_processes < MAX_NUM_PROCESSES) →
      (add_thread SHARED_MEM_SIZE state.init 200 (comm_of [99]) ⟨-1, char_array.zeros 32⟩).num_entries
        = state.init.num_entries + 2 ∧
      (add_thread SHARED_MEM_SIZE state.init 200 (comm_of [99]) ⟨-1, char_array.zeros 32⟩).entries
        state.init.num_entries = ⟨ENTRY_KIND_PROCESS, .p ⟨-1, char_array.zeros 32⟩⟩ ∧
      (add_thread SHARED_MEM_SIZE state.init 200 (comm_of [99]) ⟨-1, char_array.zeros 32⟩).entries
        (state.init.num_entries + 1) =
        ⟨ENTRY_KIND_THREAD, .t ⟨200, -1, thread_name (comm_of [99])⟩⟩) ∧
    (¬ (process_index state.init (-1) < 0 ∧ state.init.num_processes < MAX_NUM_PROCESSES) →
      (add_thread SHARED_MEM_SIZE state.init 200 (comm_of [99]) ⟨-1, char_array.zeros 32⟩).num_entries
        = state.init.num_entries + 1 ∧
      (add_thread SHARED_MEM_SIZE state.init 200 (comm_of [99]) ⟨-1, char_array.zeros 32⟩).entries
        state.init.num_entries = ⟨ENTRY_KIND_THREAD, .t ⟨200, -1, thread_name (comm_of [99])⟩⟩) ∧
    (∀ cs : List call, count_process (run SHARED_MEM_SIZE state.init cs).log (-1) ≤ 1) :=
  died_process SHARED_MEM_SIZE (by decide) state.init 200 (comm_of [99])
    ⟨-1, char_array.zeros 32⟩ init_coherent rfl rfl (by decide) (by decide) (by decide)

theorem add_thread_of_full (sz : Nat) (s : state) (tid : Int) (name : char_array 16)
    (lk : lookup) (h : s.num_threads = MAX_NUM_THREADS) : add_thread sz s tid name lk = s := by
  unfold add_thread
  rw [if_neg]
  rintro ⟨-, h'⟩
  omega

/-- C8. Cache overflow policy: in a state whose thread cache is full
(`num_threads == 4096`), with the exit flag clear and room for one more entry,
`handle_event` on any raw event of the expected size stores in slot
`num_entries` an entry of kind SchedSwitch whose payload carries the fields of
the event (`old_tid`, `old_pri`, `old_name`, `new_tid`, `new_pri`, `new_name`,
`ns`), advances the count by one, and changes nothing else: no other slot,
neither identity cache. The stored entry is a SchedSwitch entry and neither a
Process nor a Thread entry. -/
theorem cache_overflow (sz : Nat) (s : state) (c : call) (e : event)
    (hd : c.data = some e) (hsize : c.data_sz = sizeof_event)
    (hfull : s.num_threads = MAX_NUM_THREADS) (hex : s.exiting = false) (hc : s.coherent)
    (hroom : entry_start_offset + sizeof_entry * (s.num_entries + 1) ≤ sz) :
    handle_event sz s c =
      { s with
        entries := Function.update s.entries s.num_entries
          ⟨ENTRY_KIND_SCHED_SWITCH, .ss
            { old_tid := e.old_pid, old_pri := e.old_pri, old_name := e.old_name,
              new_tid := e.new_pid, new_pri := e.new_pri, new_name := e.comm, ns := e.ns }⟩
        num_entries := s.num_entries + 1
        eventcount := s.eventcount + 1 } ∧
    ((handle_event sz s c).entries s.num_entries).as_switch = some e.payload ∧
    ((handle_event sz s c).entries s.num_entries).as_process = none ∧
    ((handle_event sz s c).entries s.num_entries).as_thread = none ∧
    (∀ i, i ≠ s.num_entries → (handle_event sz s c).entries i = s.entries i) ∧
    (handle_event sz s c).num_entries = s.num_entries + 1 ∧
    (handle_event sz s c).thread_tids = s.thread_tids ∧
    (handle_event sz s c).thread_pids = s.thread_pids ∧
    (handle_event sz s c).num_threads = s.num_threads ∧
    (handle_event sz s c).process_pids = s.process_pids ∧
    (handle_event sz s c).num_processes = s.num_processes := by
  have hmod : (s.eventcount + 1) % 2 ^ 64 = s.eventcount + 1 := Nat.mod_eq_of_lt hc.2
  have hb : beyond_region sz ((s.eventcount + 1) % 2 ^ 64) = false := by
    rw [hmod, hc.1, beyond_region_false_iff]
    rw [sizeof_entry_eq, entry_start_offset_eq] at hroom
    exact hroom
  have hsse : sched_switch_entry e = ⟨ENTRY_KIND_SCHED_SWITCH, .ss e.payload⟩ := by
    simp only [sched_switch_entry, event.payload, memcpy_full]
  have heq : handle_event sz s c =
      { s with
        entries := Function.update s.entries s.num_entries
          ⟨ENTRY_KIND_SCHED_SWITCH, .ss e.payload⟩
        num_entries := s.num_entries + 1
        eventcount := s.eventcount + 1 } := by
    unfold handle_event
    rw [hd]
    simp only
    rw [if_pos ⟨by rw [hex]; rfl, hsize⟩, hb]
    simp only [Bool.false_eq_true, if_false]
    rw [add_thread_of_full sz s _ _ _ hfull, add_thread_of_full sz s _ _ _ hfull,
      post_entry_of_room sz s _ hex hb, hmod, hc.1, hsse]
  refine ⟨heq, ?_, ?_, ?_, ?_, ?_, ?_, ?_, ?_, ?_, ?_⟩
  · rw [heq]; simp [as_switch_eq_some]
  · rw [heq]; simp [entry.as_process, ENTRY_KIND_SCHED_SWITCH, ENTRY_KIND_PROCESS]
  · rw [heq]; simp [entry.as_thread, ENTRY_KIND_SCHED_SWITCH, ENTRY_KIND_THREAD]
  · intro i hi
    rw [heq]
    simp [Function.update, hi]
  all_goals rw [heq]

theorem cache_overflow_witness :
    handle_event SHARED_MEM_SIZE sample_full_state sample_call =
      { sample_full_state with
        entries := Function.update sample_full_state.entries sample_full_state.num_entries
          ⟨ENTRY_KIND_SCHED_SWITCH, .ss
            { old_tid := sample_event.old_pid, old_pri := sample_event.old_pri,
              old_name := sample_event.old_name, new_tid := sample_event.new_pid,
              new_pri := sample_event.new_pri, new_name := sample_event.comm,
              ns := sample_event.ns }⟩
        num_entries := sample_full_state.num_entries + 1
        eventcount := sample_full_state.eventcount + 1 } ∧
    ((handle_event SHARED_MEM_SIZE sample_full_state sample_call).entries
      sample_full_state.num_entries).as_switch = some sample_event.payload ∧
    ((handle_event SHARED_MEM_SIZE sample_full_state sample_call).entries
      sample_full_state.num_entries).as_process = none ∧
    ((handle_event SHARED_MEM_SIZE sample_full_state sample_call).entries
      sample_full_state.num_entries).as_thread = none ∧
    (∀ i, i ≠ sample_full_state.num_entries →
      (handle_event SHARED_MEM_SIZE sample_full_state sample_call).entries i =
        sample_full_state.entries i) ∧
    (handle_event SHARED_MEM_SIZE sample_full_state sample_call).num_entries =
      sample_full_state.num_entries + 1 ∧
    (handle_event SHARED_MEM_SIZE sample_full_state sample_call).thread_tids =
      sample_full_state.thread_tids ∧
    (handle_event SHARED_MEM_SIZE sample_full_state sample_call).thread_pids =
      sample_full_state.thread_pids ∧
    (handle_event SHARED_MEM_SIZE sample_full_state sample_call).num_threads =
      sample_full_state.num_threads ∧
    (handle_event SHARED_MEM_SIZE sample_full_state sample_call).process_pids =
      sample_full_state.process_pids ∧
    (handle_event SHARED_MEM_SIZE sample_full_state sample_call).num_processes =
      sample_full_state.num_processes :=
  cache_overflow SHARED_MEM_SIZE sample_full_state sample_call sample_event rfl (by decide)
    rfl rfl init_coherent (by decide)

/-- C9. Entry size (P1): under the C layout rules for the declared member
types, `struct entry` is 64 bytes; its payload union is as large as the largest
of the three payload structs (36, 40 and 56 bytes), so the size does not depend
on the kind held; the `entry_size` `main` computes equals `ENTRY_SIZE = 64` and
is what `main` writes to the header when it gets that far; and `main` exits
with status 1 at the size check, before `open`, exactly when the computed entry
size differs from 64. -/
theorem entry_size_64 :
    sizeof_entry = 64 ∧ ENTRY_SIZE = 64 ∧
    payload_members.map (fun t => t.size) = [36, 40, 56] ∧
    (c_union payload_members).size = 56 ∧
    (∀ o f m hdr, main o f m = .recording hdr → hdr.entry_size = ENTRY_SIZE) ∧
    main true true true = .recording
      { size := SHARED_MEM_SIZE, num_entries := 0, entry_start_offset := 32,
        entry_size := 64, done := false, blabla := true, blublu := true } ∧
    (∀ shm eso es o f m, main_from shm eso es o f m = .refused 1 ↔ es ≠ 64) := by
  refine ⟨by decide, by decide, by decide, by decide, ?_, by decide, ?_⟩
  · intro o f m hdr h
    cases o <;> cases f <;> cases m <;> simp [main, main_from, sizeof_entry_eq, ENTRY_SIZE] at h
    subst h
    rfl
  · intro shm eso es o f m
    unfold main_from
    by_cases h : es = 64
    · subst h
      cases o <;> cases f <;> cases m <;> simp [ENTRY_SIZE]
    · simp [ENTRY_SIZE, h]

/-- C10 (as stated, refuted). The payload union of `struct entry` does not begin
at byte offset 4, and the padding between `kind` and the payload is not three
bytes: the payload begins at offset 8, after 7 bytes of padding. -/
theorem entry_padding_counterexample :
    ¬ (offsetof_payload = 4) ∧ ¬ (offsetof_payload - c_uint8_t.size = 3) ∧
    offsetof_payload = 8 := by
  decide

/-- C10 (amended). In `struct entry` the 1-byte `kind` at offset 0 is followed
by seven bytes of padding (`pad1` at offset 1, `pad2` at offset 2, `pad4` at
offset 4), so the payload union, and with it the `pid` of a Process, the `tid`
of a Thread and the `old_tid` of a SchedSwitch, begins at byte offset 8. -/
theorem entry_padding :
    field_offsets 0 entry_fields = [0, 1, 2, 4, 8] ∧
    offsetof_payload - c_uint8_t.size = 7 ∧
    c_uint8_t.size + c_uint16_t.size + c_uint32_t.size = 7 ∧
    offsetof_payload_first process_payload_fields = 8 ∧
    offsetof_payload_first thread_payload_fields = 8 ∧
    offsetof_payload_first sched_switch_payload_fields = 8 := by
  decide

/-- C11. Implicit: after any sequence of `handle_event` calls from the initial
state, also between the two `add_thread` calls of one `handle_event`,
`num_processes <= num_threads <= 4096` and the pid recorded for every cached
thread is in the process cache; so in such a state, whenever `add_thread`
passes its test and calls `add_process`, the process cache is not full
(`num_processes < 4096`) and `add_process` stores a pid that is not yet cached. -/
theorem caches_balanced (sz : Nat) (hsz : sz < 2 ^ 64) (cs : List call) :
    (run sz state.init cs).balanced ∧
    (∀ tid name lk, (add_thread sz (run sz state.init cs) tid name lk).balanced) ∧
    (∀ t : state, t.balanced → ∀ tid : Int,
      thread_index t tid < 0 ∧ t.num_threads < MAX_NUM_THREADS →
      t.num_processes < MAX_NUM_PROCESSES ∧
      ∀ pid nm, process_index t pid < 0 →
        (add_process sz t pid nm).num_processes = t.num_processes + 1 ∧
        (add_process sz t pid nm).process_pids t.num_processes = pid) := by
  obtain ⟨hc, hv⟩ := run_view sz hsz cs state.init init_coherent
  have ho := owned_foldl sz cs state.init.view owned_init
  rw [← hv] at ho
  refine ⟨(balanced_iff_owned _).mpr ho, ?_, ?_⟩
  · intro tid name lk
    obtain ⟨-, hv1⟩ := add_thread_view sz hsz (run sz state.init cs) tid name lk hc
    rw [balanced_iff_owned, hv1]
    exact owned_add_thread sz _ tid name lk ho
  · intro t ht tid hguard
    have hroom : t.num_processes < MAX_NUM_PROCESSES := by
      have h1 := ht.1
      have h2 := hguard.2
      simp only [MAX_NUM_PROCESSES, MAX_NUM_THREADS] at *
      omega
    exact ⟨hroom, fun pid nm hp => add_process_stores sz t pid nm hp hroom⟩

theorem caches_balanced_witness :
    (run SHARED_MEM_SIZE state.init [sample_call]).balanced ∧
    (add_thread SHARED_MEM_SIZE (run SHARED_MEM_SIZE state.init [sample_call]) 300
      (comm_of [102]) ⟨60, char_array.zeros 32⟩).balanced ∧
    ((run SHARED_MEM_SIZE state.init [sample_call]).num_processes < MAX_NUM_PROCESSES ∧
      ∀ pid nm, process_index (run SHARED_MEM_SIZE state.init [sample_call]) pid < 0 →
        (add_process SHARED_MEM_SIZE (run SHARED_MEM_SIZE state.init [sample_call]) pid
          nm).num_processes = (run SHARED_MEM_SIZE state.init [sample_call]).num_processes + 1 ∧
        (add_process SHARED_MEM_SIZE (run SHARED_MEM_SIZE state.init [sample_call]) pid
          nm).process_pids (run SHARED_MEM_SIZE state.init [sample_call]).num_processes = pid) :=
  ⟨(caches_balanced SHARED_MEM_SIZE (by decide) [sample_call]).1,
    (caches_balanced SHARED_MEM_SIZE (by decide) [sample_call]).2.1 300 (comm_of [102])
      ⟨60, char_array.zeros 32⟩,
    (caches_balanced SHARED_MEM_SIZE (by decide) [sample_call]).2.2
      (run SHARED_MEM_SIZE state.init [sample_call])
      (caches_balanced SHARED_MEM_SIZE (by decide) [sample_call]).1 300 (by decide)⟩

end Feeze
